import Mathlib

/-!
# AmongVDB — verification of the storage/indexing engine and durability layer

Shallow embedding of the AmongVDB vector database core:

* JSON documents (the subset of rapidjson values the engine recognises:
  null, booleans, 64-bit signed integers, strings, arrays, objects);
* the scalar record store (`src/scalar_storage.cpp`) over an ordered
  key-value engine modelled as an association list;
* the filter index (`src/unnamed/part_000`, `FilterIndex`) with roaring
  bitmaps modelled as sorted duplicate-free lists of 32-bit values;
* the persistence module (`src/persistence.cpp`): WAL writer and reader;
* the orchestrating `VectorDatabase` (`src/vector_database.cpp`).

External collaborators (rapidjson, RocksDB, CRoaring) are modelled from
their documented contracts at the call boundary; everything else is a
direct translation of the C++ sources.
-/

namespace AmongVDB

/-! ## JSON documents

Modelled from the spec: rapidjson `Document`/`Value` restricted to the value
types the data model recognises (§3 of the spec: 64-bit signed integer,
string, arrays, objects; floats in vectors are modelled by their numeric
values).  Member order is preserved, as rapidjson preserves insertion /
textual order. -/

inductive Json where
  | nullV : Json
  | boolV : Bool → Json
  | intV : Int → Json
  | strV : String → Json
  | arrV : List Json → Json
  | objV : List (String × Json) → Json
deriving Repr, Inhabited

/-- Decimal digit test on characters (codes 48–57). -/
def isDigitCh (c : Char) : Bool := 48 ≤ c.toNat && c.toNat ≤ 57

/-- Digit-by-digit decimal printing (structural on the fuel so that it
evaluates inside the kernel). -/
def natCharsGo : Nat → Nat → List Char
  | 0, _ => []
  | fuel + 1, n =>
      if n = 0 then [] else natCharsGo fuel (n / 10) ++ [Nat.digitChar (n % 10)]

/-- Decimal printing of a natural number, most significant digit first –
the output format of `operator<<`/rapidjson's integer writer. -/
def natChars (n : Nat) : List Char :=
  if n = 0 then [Nat.digitChar 0] else natCharsGo n n

/-- Numeric value of a decimal digit character. -/
def chDigit (c : Char) : Nat := c.toNat - 48

/-- Value of a most-significant-first digit string. -/
def digitsVal (l : List Char) : Nat :=
  l.foldl (fun acc c => 10 * acc + chDigit c) 0

/-! ## Serializer

Modelled from the spec: rapidjson `Writer<StringBuffer>` output — minimal
single-line JSON, no added whitespace.  Strings are emitted verbatim; the
well-formedness predicate `wfStr` below restricts attention to strings the
writer emits without escape sequences. -/

mutual

def serJ : Json → List Char
  | .nullV => [Char.ofNat 110, Char.ofNat 117, Char.ofNat 108, Char.ofNat 108]
  | .boolV true => [Char.ofNat 116, Char.ofNat 114, Char.ofNat 117, Char.ofNat 101]
  | .boolV false => [Char.ofNat 102, Char.ofNat 97, Char.ofNat 108, Char.ofNat 115, Char.ofNat 101]
  | .intV n => if n < 0 then Char.ofNat 45 :: natChars n.natAbs else natChars n.natAbs
  | .strV s => Char.ofNat 34 :: s.data ++ [Char.ofNat 34]
  | .arrV xs => Char.ofNat 91 :: serElems xs ++ [Char.ofNat 93]
  | .objV ms => Char.ofNat 123 :: serMembers ms ++ [Char.ofNat 125]

def serElems : List Json → List Char
  | [] => []
  | [x] => serJ x
  | x :: y :: xs => serJ x ++ Char.ofNat 44 :: serElems (y :: xs)

def serMembers : List (String × Json) → List Char
  | [] => []
  | [m] => Char.ofNat 34 :: m.1.data ++ Char.ofNat 34 :: Char.ofNat 58 :: serJ m.2
  | m :: m2 :: ms =>
      (Char.ofNat 34 :: m.1.data ++ Char.ofNat 34 :: Char.ofNat 58 :: serJ m.2)
        ++ Char.ofNat 44 :: serMembers (m2 :: ms)

end

/-- A string the rapidjson writer emits without escapes: no quote, no
backslash, no control characters. -/
def wfStr (s : String) : Prop :=
  ∀ c ∈ s.data, c.toNat ≠ 34 ∧ c.toNat ≠ 92 ∧ 32 ≤ c.toNat

instance : DecidablePred wfStr := fun s => by
  unfold wfStr; infer_instance

mutual

/-- Well-formed document: every string (value or key) escape-free. -/
def wfJ : Json → Prop
  | .nullV => True
  | .boolV _ => True
  | .intV _ => True
  | .strV s => wfStr s
  | .arrV xs => wfElems xs
  | .objV ms => wfMembers ms

def wfElems : List Json → Prop
  | [] => True
  | x :: xs => wfJ x ∧ wfElems xs

def wfMembers : List (String × Json) → Prop
  | [] => True
  | m :: ms => wfStr m.1 ∧ wfJ m.2 ∧ wfMembers ms

end

mutual

instance wfJ.dec : (v : Json) → Decidable (wfJ v)
  | .nullV => .isTrue trivial
  | .boolV _ => .isTrue trivial
  | .intV _ => .isTrue trivial
  | .strV s => show Decidable (wfStr s) from inferInstance
  | .arrV xs => show Decidable (wfElems xs) from wfElems.dec xs
  | .objV ms => show Decidable (wfMembers ms) from wfMembers.dec ms

instance wfElems.dec : (xs : List Json) → Decidable (wfElems xs)
  | [] => .isTrue trivial
  | x :: xs =>
      show Decidable (wfJ x ∧ wfElems xs) from
        @instDecidableAnd _ _ (wfJ.dec x) (wfElems.dec xs)

instance wfMembers.dec : (ms : List (String × Json)) → Decidable (wfMembers ms)
  | [] => .isTrue trivial
  | m :: ms =>
      show Decidable (wfStr m.1 ∧ wfJ m.2 ∧ wfMembers ms) from
        @instDecidableAnd _ _ inferInstance
          (@instDecidableAnd _ _ (wfJ.dec m.2) (wfMembers.dec ms))

end

/-! ## Parser

Modelled from the spec: rapidjson `Parse` on the writer's canonical
single-line output (recursive descent; fuel bounds nesting depth). -/

/-- Parse a maximal run of decimal digits. -/
def parseNatNum (cs : List Char) : Option (Nat × List Char) :=
  let ds := cs.takeWhile isDigitCh
  if ds = [] then none else some (digitsVal ds, cs.dropWhile isDigitCh)

/-- Parse a string body up to the closing quote (escape-free domain). -/
def parseStrBody (cs : List Char) : Option (String × List Char) :=
  let body := cs.takeWhile (fun c => c ≠ Char.ofNat 34)
  match cs.dropWhile (fun c => c ≠ Char.ofNat 34) with
  | c :: rest => if c = Char.ofNat 34 then some (String.mk body, rest) else none
  | [] => none

mutual

def parseJ : Nat → List Char → Option (Json × List Char)
  | 0, _ => none
  | _ + 1, [] => none
  | fuel + 1, c :: cs =>
    if c = Char.ofNat 110 then
      match cs with
      | c1 :: c2 :: c3 :: rest =>
          if c1 = Char.ofNat 117 ∧ c2 = Char.ofNat 108 ∧ c3 = Char.ofNat 108 then
            some (.nullV, rest)
          else none
      | _ => none
    else if c = Char.ofNat 116 then
      match cs with
      | c1 :: c2 :: c3 :: rest =>
          if c1 = Char.ofNat 114 ∧ c2 = Char.ofNat 117 ∧ c3 = Char.ofNat 101 then
            some (.boolV true, rest)
          else none
      | _ => none
    else if c = Char.ofNat 102 then
      match cs with
      | c1 :: c2 :: c3 :: c4 :: rest =>
          if c1 = Char.ofNat 97 ∧ c2 = Char.ofNat 108 ∧ c3 = Char.ofNat 115 ∧
             c4 = Char.ofNat 101 then
            some (.boolV false, rest)
          else none
      | _ => none
    else if c = Char.ofNat 34 then
      (parseStrBody cs).map (fun p => (.strV p.1, p.2))
    else if c = Char.ofNat 91 then
      match cs with
      | c1 :: rest =>
          if c1 = Char.ofNat 93 then some (.arrV [], rest)
          else (parseElems fuel cs).map (fun p => (.arrV p.1, p.2))
      | [] => none
    else if c = Char.ofNat 123 then
      match cs with
      | c1 :: rest =>
          if c1 = Char.ofNat 125 then some (.objV [], rest)
          else (parseMembers fuel cs).map (fun p => (.objV p.1, p.2))
      | [] => none
    else if c = Char.ofNat 45 then
      (parseNatNum cs).map (fun p => (.intV (-(p.1 : Int)), p.2))
    else if isDigitCh c then
      (parseNatNum (c :: cs)).map (fun p => (.intV (p.1 : Int), p.2))
    else none

def parseElems : Nat → List Char → Option (List Json × List Char)
  | 0, _ => none
  | fuel + 1, cs =>
    match parseJ fuel cs with
    | none => none
    | some (v, rest) =>
      match rest with
      | c :: rest2 =>
          if c = Char.ofNat 44 then
            (parseElems fuel rest2).map (fun p => (v :: p.1, p.2))
          else if c = Char.ofNat 93 then some ([v], rest2)
          else none
      | [] => none

def parseMembers : Nat → List Char → Option (List (String × Json) × List Char)
  | 0, _ => none
  | fuel + 1, cs =>
    match cs with
    | c :: cs2 =>
      if c = Char.ofNat 34 then
        match parseStrBody cs2 with
        | none => none
        | some (k, r1) =>
          match r1 with
          | c1 :: r2 =>
            if c1 = Char.ofNat 58 then
              match parseJ fuel r2 with
              | none => none
              | some (v, r3) =>
                match r3 with
                | c2 :: r4 =>
                    if c2 = Char.ofNat 44 then
                      (parseMembers fuel r4).map (fun p => ((k, v) :: p.1, p.2))
                    else if c2 = Char.ofNat 125 then some ([(k, v)], r4)
                    else none
                | [] => none
            else none
          | [] => none
      else none
    | [] => none

end

/-! Fuel needed by the parser (bounds the recursion depth). -/

mutual

def needJ : Json → Nat
  | .arrV xs => 1 + needElems xs
  | .objV ms => 1 + needMembers ms
  | _ => 1

def needElems : List Json → Nat
  | [] => 0
  | x :: xs => 1 + max (needJ x) (needElems xs)

def needMembers : List (String × Json) → Nat
  | [] => 0
  | m :: ms => 1 + max (needJ m.2) (needMembers ms)

end

/-- The head of `r` (if any) falsifies `p`; used to delimit token runs. -/
def headNot (p : Char → Bool) : List Char → Prop
  | [] => True
  | c :: _ => p c = false

instance (p : Char → Bool) : (r : List Char) → Decidable (headNot p r)
  | [] => .isTrue trivial
  | c :: _ => show Decidable (p c = false) from inferInstance

/-- Serialize a document to the canonical JSON string
(`rapidjson::Writer` over a `StringBuffer`). -/
def jsonSerialize (v : Json) : String := String.mk (serJ v)

/-- Parse a complete JSON document; `none` models a rapidjson parse error
(resulting `Document` not an object / `HasParseError`). -/
def jsonParseDoc (s : String) : Option Json :=
  match parseJ (s.data.length + 1) s.data with
  | some (v, []) => some v
  | _ => none

instance exceptDecEq {ε α : Type} [DecidableEq ε] [DecidableEq α] :
    DecidableEq (Except ε α)
  | .error e, .error f =>
      if h : e = f then .isTrue (by rw [h]) else .isFalse (by simp [h])
  | .error _, .ok _ => .isFalse (by simp)
  | .ok _, .error _ => .isFalse (by simp)
  | .ok a, .ok b =>
      if h : a = b then .isTrue (by rw [h]) else .isFalse (by simp [h])

/-! ## Scalar record store (`src/scalar_storage.cpp`)

Modelled from the spec: the embedded key-value engine (RocksDB) is an
external collaborator; its contract is an atomic, acknowledged
put/overwrite and a get that reports a missing key. -/

/-- State of the key-value engine: an association of string keys to
string values. -/
abbrev KVStore := List (String × String)

/-- `db->Put(key, value)`: overwrite-or-insert. -/
def kvPut (store : KVStore) (key value : String) : KVStore :=
  match store with
  | [] => [(key, value)]
  | (k, v) :: rest =>
      if k = key then (k, value) :: rest else (k, v) :: kvPut rest key value

/-- `db->Get(key)`: `none` models a not-OK (missing key) status. -/
def kvGet (store : KVStore) (key : String) : Option String :=
  match store with
  | [] => none
  | (k, v) :: rest => if k = key then some v else kvGet rest key

/-- `std::to_string(id)` for the record key. -/
def natStr (n : Nat) : String := String.mk (natChars n)

/-- `ScalarStorage::insertScalar`: serialize the document with the
rapidjson writer and `Put` it under `std::to_string(id)`. -/
def insertScalar (store : KVStore) (id : Nat) (data : Json) : KVStore :=
  kvPut store (natStr id) (jsonSerialize data)

/-- `ScalarStorage::getScalar`: `Get` under `std::to_string(id)`; a miss
returns an empty (non-object) document, modelled `none`; otherwise parse
the stored bytes (a parse error also yields a non-object document). -/
def getScalar (store : KVStore) (id : Nat) : Option Json :=
  match kvGet store (natStr id) with
  | none => none
  | some value => jsonParseDoc value

/-! ## Roaring bitmaps (filter index payload)

Modelled from the spec: CRoaring is the external compressed-bitmap
library; a bitmap is a set of 32-bit unsigned integers, modelled as a
strictly sorted list of naturals below `2^32`. -/

/-- A roaring bitmap: strictly sorted list of 32-bit values. -/
abbrev Bitmap := List Nat

/-- `2^32`, the modulus of the implicit `uint64_t → uint32_t` conversion
at the `roaring_bitmap_add`/`remove` call sites. -/
def U32MOD : Nat := 4294967296

/-- `roaring_bitmap_add` (argument already truncated to 32 bits). -/
def bmAdd (b : Bitmap) (x : Nat) : Bitmap :=
  match b with
  | [] => [x]
  | y :: ys => if x < y then x :: y :: ys else if x = y then y :: ys else y :: bmAdd ys x

/-- `roaring_bitmap_remove` (argument already truncated to 32 bits). -/
def bmRemove (b : Bitmap) (x : Nat) : Bitmap :=
  match b with
  | [] => []
  | y :: ys => if x = y then ys else y :: bmRemove ys x

/-- `roaring_bitmap_contains`. -/
def bmContains (b : Bitmap) (x : Nat) : Bool := b.contains x

/-- `roaring_bitmap_or_inplace result other`: set union into `result`. -/
def bmOr (result other : Bitmap) : Bitmap := other.foldl bmAdd result

/-- `RoaringBitmapIDSelector::is_member` (`src/faiss_index.cpp`): the
64-bit label is cast with `static_cast<uint32_t>(id)` before the bitmap
membership test. -/
def isMemberSelector (b : Bitmap) (id : Int) : Bool :=
  bmContains b ((id % (4294967296 : Int)).toNat)

/-! ## Ordered maps (`std::map`) as sorted association lists -/

/-- `std::map::find`. -/
def mapFind {α β : Type} [DecidableEq α] (m : List (α × β)) (k : α) : Option β :=
  match m with
  | [] => none
  | (k0, v0) :: rest => if k0 = k then some v0 else mapFind rest k

/-- Lexicographic byte order on character lists (`std::string`'s
`operator<`). -/
def charListLt : List Char → List Char → Bool
  | [], [] => false
  | [], _ :: _ => true
  | _ :: _, [] => false
  | a :: as, b :: bs =>
      if a.toNat < b.toNat then true
      else if a.toNat = b.toNat then charListLt as bs
      else false

/-- `std::string` comparison (the `std::map<std::string, …>` comparator). -/
def strLt (a b : String) : Bool := charListLt a.data b.data

/-- `int64_t` comparison (the `std::map<int64_t, …>` comparator). -/
def intLt (a b : Int) : Bool := decide (a < b)

/-- `std::map::operator[] = v`: insert or overwrite, keeping keys sorted
by the map's comparator (`std::map` iterates in key order). -/
def mapSet {α β : Type} [DecidableEq α] (ltF : α → α → Bool)
    (m : List (α × β)) (k : α) (v : β) : List (α × β) :=
  match m with
  | [] => [(k, v)]
  | (k0, v0) :: rest =>
      if ltF k k0 then (k, v) :: (k0, v0) :: rest
      else if k = k0 then (k0, v) :: rest
      else (k0, v0) :: mapSet ltF rest k v

/-! ## Filter index (`FilterIndex`, `src/unnamed/part_000`) -/

/-- Inner map: `std::map<int64_t, roaring_bitmap_t*>`. -/
abbrev ValueMap := List (Int × Bitmap)

/-- `intFieldFilter : std::map<std::string, std::map<int64_t, roaring_bitmap_t*>>`. -/
abbrev FilterIndexState := List (String × ValueMap)

/-- `FilterIndex::Operation`. -/
inductive FilterOp where
  | EQUAL : FilterOp
  | NOT_EQUAL : FilterOp
deriving DecidableEq, Repr

/-- `FilterIndex::addIntFieldFilter`: create a fresh bitmap holding only
`id` (truncated to 32 bits by the C conversion) and assign it to
`intFieldFilter[fieldName][value]`, replacing any bitmap already there. -/
def addIntFieldFilter (s : FilterIndexState) (fieldName : String) (value : Int)
    (id : Nat) : FilterIndexState :=
  let bitmap := bmAdd [] (id % U32MOD)
  mapSet strLt s fieldName
    (mapSet intLt ((mapFind s fieldName).getD []) value bitmap)

/-- `FilterIndex::updateIntFieldFilter`: if the field is registered,
remove `id` from the old value's bitmap (when given and present), create
the new value's bitmap if missing, and add `id` to it; otherwise fall
back to `addIntFieldFilter`. -/
def updateIntFieldFilter (s : FilterIndexState) (fieldName : String)
    (oldValue : Option Int) (newValue : Int) (id : Nat) : FilterIndexState :=
  match mapFind s fieldName with
  | some valueMap =>
      let vm1 :=
        match oldValue with
        | some ov =>
            match mapFind valueMap ov with
            | some oldBitmap =>
                mapSet intLt valueMap ov (bmRemove oldBitmap (id % U32MOD))
            | none => valueMap
        | none => valueMap
      let vm2 :=
        match mapFind vm1 newValue with
        | some _ => vm1
        | none => mapSet intLt vm1 newValue []
      let vm3 :=
        match mapFind vm2 newValue with
        | some b => mapSet intLt vm2 newValue (bmAdd b (id % U32MOD))
        | none => vm2
      mapSet strLt s fieldName vm3
  | none => addIntFieldFilter s fieldName newValue id

/-- `FilterIndex::getIntFieldFilterBitmap`: OR into `resultBitmap` the
bitmaps satisfying the predicate; missing field leaves it unchanged. -/
def getIntFieldFilterBitmap (s : FilterIndexState) (fieldName : String)
    (op : FilterOp) (value : Int) (resultBitmap : Bitmap) : Bitmap :=
  match mapFind s fieldName with
  | none => resultBitmap
  | some valueMap =>
      match op with
      | .EQUAL =>
          match mapFind valueMap value with
          | some b => bmOr resultBitmap b
          | none => resultBitmap
      | .NOT_EQUAL =>
          valueMap.foldl
            (fun acc p => if p.1 ≠ value then bmOr acc p.2 else acc) resultBitmap

/-- Observation: the bitmap stored at `posting[field][value]`, if any. -/
def postingBitmap (s : FilterIndexState) (fieldName : String) (value : Int) :
    Option Bitmap :=
  (mapFind s fieldName).bind (fun vm => mapFind vm value)

/-- Observation: whether the 32-bit value `x` is a member of the bitmap at
`posting[fieldName][value]` (false when no bitmap exists there). -/
def memF (s : FilterIndexState) (fieldName : String) (value : Int) (x : Nat) :
    Bool :=
  bmContains ((postingBitmap s fieldName value).getD []) x

/-! ## CRoaring portable byte format

Modelled from the spec: "the portable bitmap format is the one defined by
the underlying compressed-bitmap library (a magic-prefixed, endian-stable
layout)", i.e. the published CRoaring/RoaringFormatSpec portable layout:
little-endian cookie `12346` (no run containers — the engine never calls
`run_optimize`), container count, per-container descriptive headers
(16-bit key, 16-bit cardinality−1), a 32-bit offset header, then the
containers: sorted 16-bit arrays when the cardinality is ≤ 4096, 8192-byte
bitsets otherwise. -/

/-- Two little-endian bytes of a 16-bit value. -/
def u16Bytes (x : Nat) : List Nat := [x % 256, x / 256 % 256]

/-- Four little-endian bytes of a 32-bit value. -/
def u32Bytes (x : Nat) : List Nat :=
  [x % 256, x / 256 % 256, x / 65536 % 256, x / 16777216 % 256]

/-- The distinct high-16-bit keys of a sorted bitmap, in order. -/
def bmKeys (b : Bitmap) : List Nat := (b.map (fun x => x / 65536)).dedup

/-- The low-16-bit values of a bitmap's container for key `k`. -/
def bmContainer (b : Bitmap) (k : Nat) : List Nat :=
  (b.filter (fun x => x / 65536 = k)).map (fun x => x % 65536)

/-- One byte of a bitset container: bit `j` set iff value `8*i+j` present. -/
def bitsetByte (c : List Nat) (i : Nat) : Nat :=
  (List.range 8).foldl (fun acc j => acc + if c.contains (8 * i + j) then 2 ^ j else 0) 0

/-- Container payload bytes: 16-bit array when cardinality ≤ 4096,
8192-byte bitset otherwise. -/
def containerBytes (c : List Nat) : List Nat :=
  if c.length ≤ 4096 then c.flatMap u16Bytes
  else (List.range 8192).map (bitsetByte c)

/-- The 32-bit offset header: byte position of each container. -/
def offsetsFrom (start : Nat) : List (List Nat) → List Nat
  | [] => []
  | c :: cs => start :: offsetsFrom (start + c.length) cs

/-- `roaring_bitmap_portable_serialize`. -/
def portableSerialize (b : Bitmap) : List Nat :=
  let keys := bmKeys b
  let conts := keys.map (fun k => containerBytes (bmContainer b k))
  u32Bytes 12346 ++ u32Bytes keys.length
    ++ keys.flatMap (fun k => u16Bytes k ++ u16Bytes ((bmContainer b k).length - 1))
    ++ (offsetsFrom (8 + 8 * keys.length) conts).flatMap u32Bytes
    ++ conts.flatMap id

/-- Take `n` bytes, or fail (the C `roaring_bitmap_portable_deserialize`
has no bounds check: reading past the buffer is undefined behaviour,
modelled as failure). -/
def readBytes (n : Nat) (bs : List Nat) : Option (List Nat × List Nat) :=
  if n ≤ bs.length then some (bs.take n, bs.drop n) else none

/-- Little-endian value of a byte list. -/
def bytesVal (bs : List Nat) : Nat := bs.foldr (fun b acc => b + 256 * acc) 0

/-- Read the `count` descriptive headers: (key, cardinality) pairs. -/
def readDescs (count : Nat) (bs : List Nat) : Option (List (Nat × Nat) × List Nat) :=
  match count with
  | 0 => some ([], bs)
  | n + 1 =>
      match readBytes 2 bs with
      | none => none
      | some (kb, bs1) =>
          match readBytes 2 bs1 with
          | none => none
          | some (cb, bs2) =>
              match readDescs n bs2 with
              | none => none
              | some (rest, bs3) => some ((bytesVal kb, bytesVal cb + 1) :: rest, bs3)

/-- Decode one container's values for `(key, card)`. -/
def readContainer (key card : Nat) (bs : List Nat) : Option (List Nat × List Nat) :=
  if card ≤ 4096 then
    match readBytes (2 * card) bs with
    | none => none
    | some (vb, bs1) =>
        some ((List.range card).map
          (fun i => key * 65536 + bytesVal (vb.drop (2 * i) |>.take 2)), bs1)
  else
    match readBytes 8192 bs with
    | none => none
    | some (vb, bs1) =>
        some (((List.range 65536).filter
          (fun v => vb.getD (v / 8) 0 / 2 ^ (v % 8) % 2 = 1)).map
            (fun v => key * 65536 + v), bs1)

/-- Decode all containers in sequence. -/
def readContainers : List (Nat × Nat) → List Nat → Option (List Nat)
  | [], _ => some []
  | (key, card) :: rest, bs =>
      match readContainer key card bs with
      | none => none
      | some (vs, bs1) =>
          match readContainers rest bs1 with
          | none => none
          | some vss => some (vs ++ vss)

/-- `roaring_bitmap_portable_deserialize`; `none` models the undefined
behaviour of reading a malformed or truncated buffer. -/
def portableDeserialize (bs : List Nat) : Option Bitmap :=
  match readBytes 4 bs with
  | none => none
  | some (cookieB, bs1) =>
      if bytesVal cookieB = 12346 then
        match readBytes 4 bs1 with
        | none => none
        | some (countB, bs2) =>
            match readDescs (bytesVal countB) bs2 with
            | none => none
            | some (descs, bs3) =>
                match readBytes (4 * bytesVal countB) bs3 with
                | none => none
                | some (_, bs4) => readContainers descs bs4
      else none

/-! ## Filter index serialization (`FilterIndex::serializeIntFieldFilter`
and `deserializeIntFieldFilter`, `src/unnamed/part_000` lines 140–201) -/

/-- `operator<<` on an `int64_t`. -/
def intChars (v : Int) : List Char :=
  if v < 0 then Char.ofNat 45 :: natChars v.natAbs else natChars v.natAbs

/-- `FilterIndex::serializeIntFieldFilter`: for each (field, value,
bitmap) triple in map order emit `field|value|<portable-bytes>` and
`std::endl`; the bitmap bytes are spliced into the stream verbatim. -/
def serializeIntFieldFilter (s : FilterIndexState) : List Char :=
  s.flatMap (fun fe =>
    fe.2.flatMap (fun ve =>
      fe.1.data ++ Char.ofNat 124 :: intChars ve.1 ++ Char.ofNat 124 ::
        (portableSerialize ve.2).map Char.ofNat ++ [Char.ofNat 10]))

/-- `std::getline(iss, line)` loop body over a fuel bound (each iteration
consumes at least one character, so `length + 1` fuel always suffices). -/
def splitLinesGo : Nat → List Char → List (List Char)
  | 0, _ => []
  | fuel + 1, cs =>
      if cs = [] then []
      else
        match cs.dropWhile (fun c => c ≠ Char.ofNat 10) with
        | [] => [cs.takeWhile (fun c => c ≠ Char.ofNat 10)]
        | _ :: rest2 =>
            cs.takeWhile (fun c => c ≠ Char.ofNat 10) :: splitLinesGo fuel rest2

/-- `std::getline(iss, line)`: split a stream into newline-terminated
lines; the delimiter is consumed, a final unterminated segment is still
returned, and `getline` at end-of-file fails (ending the loop). -/
def splitLines (cs : List Char) : List (List Char) :=
  splitLinesGo (cs.length + 1) cs

/-- `std::getline(stream, field, delim)`: the field up to the delimiter
(which is consumed) and the rest of the stream. -/
def getlineField (delim : Char) (cs : List Char) : List Char × List Char :=
  (cs.takeWhile (fun c => c ≠ delim),
   match cs.dropWhile (fun c => c ≠ delim) with
   | [] => []
   | _ :: rest => rest)

/-- `std::stoull` on the leading digit run: the parsed value, or a thrown
`std::invalid_argument` (modelled as `Except.error`) when the string does
not start with a digit. -/
def stoullModel (cs : List Char) : Except Unit Nat :=
  let ds := cs.takeWhile isDigitCh
  if ds = [] then .error () else .ok (digitsVal ds)

/-- `std::stoll`: optional leading minus, then a digit run. -/
def stollModel (cs : List Char) : Except Unit Int :=
  match cs with
  | [] => .error ()
  | c :: rest =>
      if c = Char.ofNat 45 then
        match stoullModel rest with
        | .error e => .error e
        | .ok n => .ok (-(n : Int))
      else
        match stoullModel (c :: rest) with
        | .error e => .error e
        | .ok n => .ok (n : Int)

/-- `FilterIndex::deserializeIntFieldFilter`, one line: split the first
two fields on `|`, `std::stoll` the value, read the rest of the line as
the portable bitmap bytes, and store the bitmap at
`intFieldFilter[fieldName][value]`.  An exception or undefined bitmap
decode is `Except.error`. -/
def deserializeLine (acc : FilterIndexState) (line : List Char) :
    Except Unit FilterIndexState :=
  let p1 := getlineField (Char.ofNat 124) line
  let p2 := getlineField (Char.ofNat 124) p1.2
  match stollModel p2.1 with
  | .error e => .error e
  | .ok value =>
      match portableDeserialize (p2.2.map Char.toNat) with
      | none => .error ()
      | some bitmap =>
          .ok (mapSet strLt acc (String.mk p1.1)
            (mapSet intLt ((mapFind acc (String.mk p1.1)).getD []) value bitmap))

/-- `FilterIndex::deserializeIntFieldFilter`: process every line. -/
def deserializeIntFieldFilter (serializedData : List Char) :
    Except Unit FilterIndexState :=
  (splitLines serializedData).foldlM deserializeLine []

/-! ## Persistence (`src/persistence.cpp`) -/

/-- `Persistence` state: the log-sequence counter, the snapshot cursor,
and the append-only WAL file content (one entry per line). -/
structure PersistenceState where
  currentID : Nat
  lastSnapshotID : Nat
  walLines : List String
deriving DecidableEq, Repr

/-- `Persistence::Persistence()` followed by `init` on an empty log file
with no `lastSnapshotID` sidecar (`loadLastSnapshotID` leaves the
constructor's 0 in place when the file is missing). -/
def freshPersistence : PersistenceState :=
  { currentID := 1, lastSnapshotID := 0, walLines := [] }

/-- `Persistence::increaseID`: pre-increment, return the new value. -/
def increaseID (s : PersistenceState) : Nat × PersistenceState :=
  (s.currentID + 1, { s with currentID := s.currentID + 1 })

/-- `logID|version|operationType|jsonDataString`, the WAL line written by
`Persistence::writeWALLog`. -/
def formatWALLine (logID : Nat) (version op payload : String) : String :=
  String.mk (natChars logID ++ Char.ofNat 124 :: version.data
    ++ Char.ofNat 124 :: op.data ++ Char.ofNat 124 :: payload.data)

/-- `Persistence::writeWALLog`: take a fresh log id, serialize the
document, stream the formatted line.  `writeOk = false` models
`walLogFile.fail()`: the entry does not reach the file, the error is
logged, but the counter stays incremented. -/
def writeWALLog (s : PersistenceState) (operationType : String) (jsonData : Json)
    (version : String) (writeOk : Bool) : PersistenceState :=
  let p := increaseID s
  let line := formatWALLine p.1 version operationType (jsonSerialize jsonData)
  { p.2 with walLines := if writeOk then p.2.walLines ++ [line] else p.2.walLines }

/-- Replay a list of `(operationType, document, version, writeOk)` append
requests. -/
def applyWALWrites (s : PersistenceState) :
    List (String × Json × String × Bool) → PersistenceState
  | [] => s
  | w :: ws => applyWALWrites (writeWALLog s w.1 w.2.1 w.2.2.1 w.2.2.2) ws

/-- The log sequence number at the head of a WAL line, as the reader
parses it (`std::stoull` on the first `|`-field). -/
def lineLogSeq (line : String) : Nat := digitsVal (line.data.takeWhile isDigitCh)

/-- Result of `Persistence::readNextWALLog`: the two out-parameters (the
raw string handed to `rapidjson::Parse` is kept alongside the parsed
document), the updated `currentID`, the unconsumed stream, and whether
the stream is left usable (`walLogFile.clear()` at end-of-file). -/
structure WalReadOut where
  opType : String
  jsonRaw : Option String
  jsonData : Option Json
  currentID : Nat
  linesRemaining : List String
  streamCleared : Bool

/-- `Persistence::readNextWALLog`: read lines in order; split each on the
first four `|` delimiters with `std::getline`; `std::stoull` the first
field (a malformed line throws, `Except.error`); keep `currentID` in sync;
skip entries with `logID ≤ lastSnapshotID`; return the first entry with
`logID > lastSnapshotID` after parsing its payload; at end-of-file clear
the op out-parameter and clear the stream's failure bits. -/
def readNextWALLog : List String → Nat → Nat → Except Unit WalReadOut
  | [], currentID, _ =>
      .ok { opType := "", jsonRaw := none, jsonData := none,
            currentID := currentID, linesRemaining := [], streamCleared := true }
  | line :: rest, currentID, lastSnapshotID =>
      let q1 := getlineField (Char.ofNat 124) line.data
      let q2 := getlineField (Char.ofNat 124) q1.2
      let q3 := getlineField (Char.ofNat 124) q2.2
      let q4 := getlineField (Char.ofNat 124) q3.2
      match stoullModel q1.1 with
      | .error e => .error e
      | .ok logID =>
          let cur2 := if logID > currentID then logID else currentID
          if logID > lastSnapshotID then
            .ok { opType := String.mk q3.1,
                  jsonRaw := some (String.mk q4.1),
                  jsonData := jsonParseDoc (String.mk q4.1),
                  currentID := cur2, linesRemaining := rest,
                  streamCleared := true }
          else readNextWALLog rest cur2 lastSnapshotID

/-- A WAL entry as appended: (log sequence, version, operation, payload). -/
abbrev WalEntryT := Nat × String × String × String

/-- The line the writer emits for an entry. -/
def mkWALLine (e : WalEntryT) : String := formatWALLine e.1 e.2.1 e.2.2.1 e.2.2.2

/-- A field the `|`/newline framing can carry verbatim. -/
def noPipe (s : String) : Prop :=
  ∀ c ∈ s.data, c ≠ Char.ofNat 124 ∧ c ≠ Char.ofNat 10

instance : DecidablePred noPipe := fun s => by
  unfold noPipe; infer_instance

/-- A WAL entry whose version, op and payload respect the line framing
(the wire contract of §4.5: `|` must not appear in `version` or `op`, the
payload is single-line; the payload is additionally `|`-free, which is
what claim C7 is about). -/
def wfWalEntry (e : WalEntryT) : Prop :=
  noPipe e.2.1 ∧ noPipe e.2.2.1 ∧ noPipe e.2.2.2

instance : DecidablePred wfWalEntry := fun e => by
  unfold wfWalEntry; infer_instance

/-- Modelled from the spec (the words of claim C6): skip every entry whose
`log_seq ≤ snapshot_cursor`, keeping `current_id` at the running maximum;
return the first entry whose `log_seq` exceeds the cursor, populating the
out-parameters from that entry; at end-of-file clear the op out-parameter
to the empty string and leave the stream usable. -/
def readNextSpec : List WalEntryT → Nat → Nat → WalReadOut
  | [], currentID, _ =>
      { opType := "", jsonRaw := none, jsonData := none,
        currentID := currentID, linesRemaining := [], streamCleared := true }
  | e :: rest, currentID, lastSnapshotID =>
      if e.1 > lastSnapshotID then
        { opType := e.2.2.1, jsonRaw := some e.2.2.2,
          jsonData := jsonParseDoc e.2.2.2,
          currentID := max currentID e.1,
          linesRemaining := rest.map mkWALLine, streamCleared := true }
      else readNextSpec rest (max currentID e.1) lastSnapshotID

/-! ## Vector database (`src/vector_database.cpp`) -/

/-- `IndexFactory::IndexType` (the kinds the write path dispatches on). -/
inductive IndexType where
  | FLAT : IndexType
  | HNSW : IndexType
  | UNKNOWN : IndexType
deriving DecidableEq, Repr

/-- An ANN index adapter's content: (label, vector) pairs in insertion
order.  Modelled from the spec: both adapters are black boxes behind an
insert/remove contract; vector components are the parsed numeric values. -/
abbrev AnnIndex := List (Nat × List Int)

/-- `rapidjson Value::IsInt`: the value fits a 32-bit signed `int`. -/
def jsonIsInt : Json → Bool
  | .intV n => -2147483648 ≤ n && n < 2147483648
  | _ => false

/-- `rapidjson Value::IsInt64`. -/
def jsonIsInt64 : Json → Bool
  | .intV n => -9223372036854775808 ≤ n && n < 9223372036854775808
  | _ => false

/-- `rapidjson Value::GetInt64` on an integer value. -/
def jsonInt : Json → Int
  | .intV n => n
  | _ => 0

/-- `rapidjson::Value::operator[](name)` via `FindMember`: first member
with the given name. -/
def memberFind (fields : List (String × Json)) (name : String) : Option Json :=
  match fields with
  | [] => none
  | (k, v) :: rest => if k = name then some v else memberFind rest name

/-- Read `doc["vectors"]` elementwise with `GetFloat` (asserts on a
missing member, a non-array, or non-numeric elements). -/
def extractVec (fields : List (String × Json)) : Except Unit (List Int) :=
  match memberFind fields "vectors" with
  | some (.arrV xs) =>
      xs.foldrM (fun x acc =>
        match x with
        | .intV n => .ok (n :: acc)
        | _ => .error ()) []
  | _ => .error ()

/-- State owned by `VectorDatabase` (plus the registry's indices): the
scalar store, the filter index, and the two ANN adapters. -/
structure VectorDB where
  scalarStorage : KVStore
  filterIndex : FilterIndexState
  flatIndex : AnnIndex
  hnswIndex : AnnIndex
deriving DecidableEq, Repr

/-- A freshly started service (empty engine, empty indices). -/
def initialVectorDB : VectorDB :=
  { scalarStorage := [], filterIndex := [], flatIndex := [], hnswIndex := [] }

/-- Upsert step 2: when the record exists, re-read its stored vector
(`existingData["vectors"]`, element reads assert) and remove the label
from the FLAT index; HNSW removal is commented out in the source. -/
def step2RemoveOld (db : VectorDB) (existingData : Option Json) (id : Nat)
    (indexType : IndexType) : Except Unit VectorDB :=
  match existingData with
  | some (.objV efields) =>
      match extractVec efields with
      | .error e => .error e
      | .ok _ =>
          match indexType with
          | .FLAT => .ok { db with flatIndex := db.flatIndex.filter (fun p => p.1 ≠ id) }
          | .HNSW => .ok db
          | .UNKNOWN => .ok db
  | _ => .ok db

/-- Upsert step 3: insert the new vector under the requested index kind
(the `default` switch branch inserts nowhere). -/
def step3Insert (db : VectorDB) (newVector : List Int) (id : Nat)
    (indexType : IndexType) : VectorDB :=
  match indexType with
  | .FLAT => { db with flatIndex := db.flatIndex ++ [(id, newVector)] }
  | .HNSW => { db with hnswIndex := db.hnswIndex ++ [(id, newVector)] }
  | .UNKNOWN => db

/-- Upsert step 4, old-value extraction for one field: when a previous
record exists, `existingData[fieldName].GetInt64()` is evaluated
unconditionally — `operator[]` on a missing member and `GetInt64` on a
non-integer both assert (`Except.error`). -/
def oldFieldValue (existingData : Option Json) (fieldName : String) :
    Except Unit (Option Int) :=
  match existingData with
  | some (.objV efields) =>
      match memberFind efields fieldName with
      | some ev => if jsonIsInt64 ev then .ok (some (jsonInt ev)) else .error ()
      | none => .error ()
  | _ => .ok none

/-- Upsert step 4: walk the document's members in order; every `IsInt`
field other than `id` updates the filter index with the (possibly
absent) old value. -/
def filterLoop (existingData : Option Json) (id : Nat) :
    FilterIndexState → List (String × Json) → Except Unit FilterIndexState
  | f, [] => .ok f
  | f, (fieldName, val) :: rest =>
      if jsonIsInt val && !(fieldName == "id") then
        match oldFieldValue existingData fieldName with
        | .error e => .error e
        | .ok oldPtr =>
            filterLoop existingData id
              (updateIntFieldFilter f fieldName oldPtr (jsonInt val) id) rest
      else filterLoop existingData id f rest

/-- `VectorDatabase::upsert`: look up the existing record, remove the old
vector, insert the new one, update the filter index field by field, and
finally write the document to the scalar store.  `Except.error` models an
assertion failure / undefined behaviour on the way. -/
def upsert (db : VectorDB) (id : Nat) (data : Json) (indexType : IndexType) :
    Except Unit VectorDB :=
  let existingData := getScalar db.scalarStorage id
  match data with
  | .objV fields =>
      match step2RemoveOld db existingData id indexType with
      | .error e => .error e
      | .ok db1 =>
          match extractVec fields with
          | .error e => .error e
          | .ok newVector =>
              let db2 := step3Insert db1 newVector id indexType
              match filterLoop existingData id db2.filterIndex fields with
              | .error e => .error e
              | .ok f2 =>
                  .ok { db2 with
                          filterIndex := f2,
                          scalarStorage := insertScalar db2.scalarStorage id data }
  | _ => .error ()

/-- `VectorDatabase::query`: pass `getScalar` straight through. -/
def query (db : VectorDB) (id : Nat) : Option Json :=
  getScalar db.scalarStorage id

/-- A sequence of upserts driven through the write path. -/
def applyUpserts (db : VectorDB) :
    List (Nat × Json × IndexType) → Except Unit VectorDB
  | [] => .ok db
  | op :: ops =>
      match upsert db op.1 op.2.1 op.2.2 with
      | .error e => .error e
      | .ok db2 => applyUpserts db2 ops

/-- A value whose integer content fits rapidjson's 32-bit `IsInt` test
(non-integers are unrestricted). -/
def int32Val : Json → Prop
  | .intV n => -2147483648 ≤ n ∧ n < 2147483648
  | _ => True

instance int32Val.dec : (v : Json) → Decidable (int32Val v)
  | .intV n =>
      show Decidable (-2147483648 ≤ n ∧ n < 2147483648) from inferInstance
  | .nullV => .isTrue trivial
  | .boolV _ => .isTrue trivial
  | .strV _ => .isTrue trivial
  | .arrV _ => .isTrue trivial
  | .objV _ => .isTrue trivial

/-- A document whose member names are duplicate-free and whose integer
fields all lie in the 32-bit `IsInt` range (so every integer field is
indexed by the upsert filter loop). -/
def intFieldsOk : Json → Prop
  | .objV fields => (fields.map Prod.fst).Nodup ∧ ∀ m ∈ fields, int32Val m.2
  | _ => False

instance intFieldsOk.dec : (v : Json) → Decidable (intFieldsOk v)
  | .objV fields =>
      show Decidable ((fields.map Prod.fst).Nodup ∧ ∀ m ∈ fields, int32Val m.2)
        from inferInstance
  | .nullV => .isFalse (fun h => h)
  | .boolV _ => .isFalse (fun h => h)
  | .intV _ => .isFalse (fun h => h)
  | .strV _ => .isFalse (fun h => h)
  | .arrV _ => .isFalse (fun h => h)

/-- Structural well-formedness of the filter state: every stored bitmap is
strictly sorted (as CRoaring bitmaps are sets). -/
def filterWF (s : FilterIndexState) : Prop :=
  ∀ fvm ∈ s, ∀ vb ∈ fvm.2, vb.2.Pairwise (fun a b : Nat => a < b)

/-- The filter invariant of claim C2 at a database state: for every live
record `(id, fields)` and every integer-valued field other than `id`, the
(truncated) record identifier is a member of the bitmap at the field's
current value and of no bitmap at any other value of that field's posting
map. -/
def filterInvariant (db : VectorDB) : Prop :=
  ∀ id fields, getScalar db.scalarStorage id = some (.objV fields) →
    ∀ fv ∈ fields, fv.1 ≠ "id" → ∀ n : Int, fv.2 = .intV n →
      memF db.filterIndex fv.1 n (id % U32MOD) = true ∧
      ∀ w : Int, w ≠ n → memF db.filterIndex fv.1 w (id % U32MOD) = false

/-- The strengthened induction invariant for claim C2: bitmap structural
well-formedness, live documents well-formed with 32-bit integer fields,
live identifiers pairwise distinct modulo `2^32`, bitmap members
accounted for by live records (every member of `posting[f][v]` is a live
record that either carries `f = v`, or no longer carries `f` at all, or
carries a non-integer `f` — the latter two are stale postings the write
path can never touch again without asserting), and the filter invariant
itself. -/
def dbInv (db : VectorDB) : Prop :=
  filterWF db.filterIndex ∧
  (∀ id fields, getScalar db.scalarStorage id = some (.objV fields) →
      wfJ (.objV fields) ∧ intFieldsOk (.objV fields)) ∧
  (∀ id1 id2 f1 f2, getScalar db.scalarStorage id1 = some (.objV f1) →
      getScalar db.scalarStorage id2 = some (.objV f2) →
      id1 % U32MOD = id2 % U32MOD → id1 = id2) ∧
  (∀ f v x, memF db.filterIndex f v x = true →
      f ≠ "id" ∧
      ∃ id fields, getScalar db.scalarStorage id = some (.objV fields) ∧
        id % U32MOD = x ∧
        (memberFind fields f = some (.intV v) ∨
         memberFind fields f = none ∨
         ∃ u, memberFind fields f = some u ∧ jsonIsInt64 u = false)) ∧
  filterInvariant db

/-! ## Lemmas: decimal printing and token runs -/

theorem digitChar_isDigit (d : Nat) (h : d < 10) : isDigitCh (Nat.digitChar d) = true := by
  interval_cases d <;> decide

theorem chDigit_digitChar (d : Nat) (h : d < 10) : chDigit (Nat.digitChar d) = d := by
  interval_cases d <;> decide

theorem natCharsGo_eq (fuel : Nat) :
    ∀ m ≤ fuel, natCharsGo fuel m = (Nat.digits 10 m).reverse.map Nat.digitChar := by
  induction fuel with
  | zero =>
      intro m hm
      interval_cases m
      simp [natCharsGo]
  | succ fuel ih =>
      intro m hm
      by_cases h0 : m = 0
      · subst h0
        simp [natCharsGo]
      · have hdiv : m / 10 ≤ fuel := by
          have : m / 10 < m := Nat.div_lt_self (Nat.pos_of_ne_zero h0) (by norm_num)
          omega
        rw [show natCharsGo (fuel + 1) m
          = natCharsGo fuel (m / 10) ++ [Nat.digitChar (m % 10)] by
            simp [natCharsGo, h0]]
        rw [ih (m / 10) hdiv]
        rw [Nat.digits_def' (by norm_num : 1 < 10) (Nat.pos_of_ne_zero h0)]
        simp

theorem natChars_eq (n : Nat) :
    natChars n = if n = 0 then [Nat.digitChar 0]
      else (Nat.digits 10 n).reverse.map Nat.digitChar := by
  unfold natChars
  by_cases h0 : n = 0
  · simp [h0]
  · simp [h0, natCharsGo_eq n n le_rfl]

theorem natChars_ne_nil (n : Nat) : natChars n ≠ [] := by
  rw [natChars_eq]
  split
  · simp
  · have hd : Nat.digits 10 n ≠ [] := by
      rw [Nat.digits_ne_nil_iff_ne_zero]
      assumption
    simp [hd]

theorem natChars_digits (n : Nat) : ∀ c ∈ natChars n, isDigitCh c = true := by
  rw [natChars_eq]
  split
  · intro c hc
    simp only [List.mem_singleton] at hc
    subst hc
    decide
  · intro c hc
    simp only [List.mem_map, List.mem_reverse] at hc
    obtain ⟨d, hd, rfl⟩ := hc
    exact digitChar_isDigit d (Nat.digits_lt_base (by norm_num) hd)

theorem foldl_digits (ds : List Nat) (h : ∀ d ∈ ds, d < 10) (acc : Nat) :
    List.foldl (fun a c => 10 * a + chDigit c) acc ((ds.map Nat.digitChar).reverse)
      = acc * 10 ^ ds.length + Nat.ofDigits 10 ds := by
  induction ds generalizing acc with
  | nil => simp [Nat.ofDigits]
  | cons d ds ih =>
      simp only [List.map_cons, List.reverse_cons, List.foldl_append, List.foldl_cons,
        List.foldl_nil]
      rw [ih (fun x hx => h x (List.mem_cons_of_mem d hx)) acc]
      rw [chDigit_digitChar d (h d (List.mem_cons_self _ _))]
      rw [Nat.ofDigits_cons, List.length_cons, pow_succ]
      ring

theorem digitsVal_natChars (n : Nat) : digitsVal (natChars n) = n := by
  rw [natChars_eq]
  unfold digitsVal
  split
  · rename_i h
    subst h
    decide
  · have := foldl_digits (Nat.digits 10 n)
      (fun d hd => Nat.digits_lt_base (by norm_num) hd) 0
    simpa [Nat.ofDigits_digits] using this

theorem takeWhile_append_all {p : Char → Bool} (l r : List Char)
    (hl : ∀ c ∈ l, p c = true) (hr : headNot p r) :
    (l ++ r).takeWhile p = l := by
  induction l with
  | nil =>
      cases r with
      | nil => simp
      | cons c cs =>
          have hr2 : p c = false := hr
          simp [List.takeWhile_cons, hr2]
  | cons a l ih =>
      simp [List.takeWhile_cons, hl a (List.mem_cons_self _ _),
        ih (fun c hc => hl c (List.mem_cons_of_mem a hc))]

theorem dropWhile_append_all {p : Char → Bool} (l r : List Char)
    (hl : ∀ c ∈ l, p c = true) (hr : headNot p r) :
    (l ++ r).dropWhile p = r := by
  induction l with
  | nil =>
      cases r with
      | nil => simp
      | cons c cs =>
          have hr2 : p c = false := hr
          simp [List.dropWhile_cons, hr2]
  | cons a l ih =>
      simp [List.dropWhile_cons, hl a (List.mem_cons_self _ _),
        ih (fun c hc => hl c (List.mem_cons_of_mem a hc))]

theorem parseNatNum_natChars (n : Nat) (rest : List Char)
    (hr : headNot isDigitCh rest) :
    parseNatNum (natChars n ++ rest) = some (n, rest) := by
  unfold parseNatNum
  rw [takeWhile_append_all _ _ (natChars_digits n) hr,
    dropWhile_append_all _ _ (natChars_digits n) hr]
  simp [natChars_ne_nil n, digitsVal_natChars n]

theorem isDigitCh_bounds (c : Char) (h : isDigitCh c = true) :
    48 ≤ c.toNat ∧ c.toNat ≤ 57 := by
  simpa [isDigitCh, Bool.and_eq_true, decide_eq_true_eq] using h

theorem digit_ne_specials (c : Char) (h : isDigitCh c = true) :
    c ≠ Char.ofNat 110 ∧ c ≠ Char.ofNat 116 ∧ c ≠ Char.ofNat 102 ∧
    c ≠ Char.ofNat 34 ∧ c ≠ Char.ofNat 91 ∧ c ≠ Char.ofNat 123 ∧
    c ≠ Char.ofNat 45 ∧ c ≠ Char.ofNat 93 ∧ c ≠ Char.ofNat 125 ∧
    c ≠ Char.ofNat 44 ∧ c ≠ Char.ofNat 124 ∧ c ≠ Char.ofNat 10 := by
  refine ⟨?_, ?_, ?_, ?_, ?_, ?_, ?_, ?_, ?_, ?_, ?_, ?_⟩ <;>
    (rintro rfl; exact absurd h (by decide))

/-! ## Lemmas: the JSON writer/parser round trip -/

theorem parseStrBody_ser (s : String) (hs : wfStr s) (rest : List Char) :
    parseStrBody (s.data ++ Char.ofNat 34 :: rest) = some (s, rest) := by
  unfold parseStrBody
  have hall : ∀ c ∈ s.data, (fun c => decide (c ≠ Char.ofNat 34)) c = true := by
    intro c hc
    have h34 := (hs c hc).1
    simp only [decide_eq_true_eq]
    intro heq
    apply h34
    rw [heq]
    decide
  have hhead : headNot (fun c => decide (c ≠ Char.ofNat 34)) (Char.ofNat 34 :: rest) := by
    simp [headNot]
  rw [takeWhile_append_all _ _ hall hhead, dropWhile_append_all _ _ hall hhead]
  simp

theorem serJ_head (v : Json) :
    ∃ c t, serJ v = c :: t ∧ c ≠ Char.ofNat 93 ∧ c ≠ Char.ofNat 125 := by
  cases v with
  | nullV => exact ⟨_, _, rfl, by decide, by decide⟩
  | boolV b => cases b <;> exact ⟨_, _, rfl, by decide, by decide⟩
  | intV n =>
      by_cases hn : n < 0
      · refine ⟨Char.ofNat 45, natChars n.natAbs, ?_, by decide, by decide⟩
        simp [serJ, hn]
      · obtain ⟨c, t, hct⟩ : ∃ c t, natChars n.natAbs = c :: t := by
          cases h : natChars n.natAbs with
          | nil => exact absurd h (natChars_ne_nil _)
          | cons c t => exact ⟨c, t, rfl⟩
        have hd : isDigitCh c = true :=
          natChars_digits n.natAbs c (by rw [hct]; exact List.mem_cons_self _ _)
        obtain ⟨_, _, _, _, _, _, _, h93, h125, _, _, _⟩ := digit_ne_specials c hd
        refine ⟨c, t, ?_, h93, h125⟩
        simp [serJ, hn, hct]
  | strV s => exact ⟨_, _, rfl, by decide, by decide⟩
  | arrV xs => exact ⟨_, _, rfl, by decide, by decide⟩
  | objV ms => exact ⟨_, _, rfl, by decide, by decide⟩

theorem parse_ser_main : ∀ fuel : Nat,
    (∀ v rest, wfJ v → needJ v ≤ fuel → headNot isDigitCh rest →
      parseJ fuel (serJ v ++ rest) = some (v, rest)) ∧
    (∀ x xs rest, wfElems (x :: xs) → needElems (x :: xs) ≤ fuel →
      parseElems fuel (serElems (x :: xs) ++ Char.ofNat 93 :: rest)
        = some (x :: xs, rest)) ∧
    (∀ m ms rest, wfMembers (m :: ms) → needMembers (m :: ms) ≤ fuel →
      parseMembers fuel (serMembers (m :: ms) ++ Char.ofNat 125 :: rest)
        = some (m :: ms, rest)) := by
  intro fuel
  induction fuel with
  | zero =>
      refine ⟨?_, ?_, ?_⟩
      · intro v rest _ hneed _
        cases v <;> simp [needJ] at hneed
      · intro x xs rest _ hneed
        simp [needElems] at hneed
      · intro m ms rest _ hneed
        simp [needMembers] at hneed
  | succ fuel ih =>
      obtain ⟨ihJ, ihE, ihM⟩ := ih
      refine ⟨?_, ?_, ?_⟩
      · intro v rest hwf hneed hrest
        cases v with
        | nullV => simp +decide [serJ, parseJ]
        | boolV b => cases b <;> simp +decide [serJ, parseJ]
        | intV n =>
            by_cases hn : n < 0
            · have hser : serJ (.intV n) ++ rest
                  = Char.ofNat 45 :: (natChars n.natAbs ++ rest) := by
                simp [serJ, hn]
              rw [hser]
              simp [parseJ, parseNatNum_natChars n.natAbs rest hrest]
              rw [abs_of_neg hn, neg_neg]
            · obtain ⟨c, t, hct⟩ : ∃ c t, natChars n.natAbs = c :: t := by
                cases h : natChars n.natAbs with
                | nil => exact absurd h (natChars_ne_nil _)
                | cons c t => exact ⟨c, t, rfl⟩
              have hd : isDigitCh c = true :=
                natChars_digits n.natAbs c (by rw [hct]; exact List.mem_cons_self _ _)
              obtain ⟨e1, e2, e3, e4, e5, e6, e7, _, _, _, _, _⟩ :=
                digit_ne_specials c hd
              have hser : serJ (.intV n) ++ rest = c :: (t ++ rest) := by
                simp [serJ, hn, hct]
              have hback : c :: (t ++ rest) = natChars n.natAbs ++ rest := by
                rw [hct]; simp
              rw [hser]
              simp only [parseJ]
              rw [if_neg e1, if_neg e2, if_neg e3, if_neg e4, if_neg e5,
                if_neg e6, if_neg e7, if_pos hd]
              rw [hback, parseNatNum_natChars n.natAbs rest hrest]
              simp [Int.natAbs_of_nonneg (le_of_not_lt hn)]
        | strV s =>
            have hser : serJ (.strV s) ++ rest
                = Char.ofNat 34 :: (s.data ++ Char.ofNat 34 :: rest) := by
              simp [serJ]
            rw [hser]
            simp [parseJ, parseStrBody_ser s hwf rest]
        | arrV xs =>
            cases xs with
            | nil => simp +decide [serJ, serElems, parseJ]
            | cons x xs =>
                obtain ⟨c, t, hct, h93, _⟩ := serJ_head x
                have hu : ∃ u, serElems (x :: xs) = serJ x ++ u := by
                  cases xs with
                  | nil => exact ⟨[], by simp [serElems]⟩
                  | cons y ys =>
                      exact ⟨Char.ofNat 44 :: serElems (y :: ys), by simp [serElems]⟩
                obtain ⟨u, hu⟩ := hu
                have hser : serJ (.arrV (x :: xs)) ++ rest
                    = Char.ofNat 91 ::
                        (serElems (x :: xs) ++ Char.ofNat 93 :: rest) := by
                  simp [serJ]
                rw [hser]
                have hcons : serElems (x :: xs) ++ Char.ofNat 93 :: rest
                    = c :: (t ++ u ++ Char.ofNat 93 :: rest) := by
                  rw [hu, hct]; simp
                rw [hcons]
                simp only [parseJ]
                rw [if_pos trivial, if_neg h93]
                rw [← hcons]
                rw [ihE x xs rest hwf (by simp [needJ] at hneed; omega)]
                simp
        | objV ms =>
            cases ms with
            | nil => simp +decide [serJ, serMembers, parseJ]
            | cons m ms =>
                have hu : ∃ u, serMembers (m :: ms)
                    = Char.ofNat 34 :: (m.1.data ++ Char.ofNat 34 ::
                        Char.ofNat 58 :: serJ m.2) ++ u := by
                  cases ms with
                  | nil => exact ⟨[], by simp [serMembers]⟩
                  | cons m2 ms2 =>
                      exact ⟨Char.ofNat 44 :: serMembers (m2 :: ms2),
                        by simp [serMembers]⟩
                obtain ⟨u, hu⟩ := hu
                have hser : serJ (.objV (m :: ms)) ++ rest
                    = Char.ofNat 123 ::
                        (serMembers (m :: ms) ++ Char.ofNat 125 :: rest) := by
                  simp [serJ]
                rw [hser]
                have hcons : serMembers (m :: ms) ++ Char.ofNat 125 :: rest
                    = Char.ofNat 34 :: ((m.1.data ++ Char.ofNat 34 ::
                        Char.ofNat 58 :: serJ m.2) ++ u ++ Char.ofNat 125 :: rest) := by
                  rw [hu]; simp
                rw [hcons]
                simp only [parseJ]
                rw [if_pos trivial]
                rw [← hcons]
                rw [ihM m ms rest hwf (by simp [needJ] at hneed; omega)]
                simp
      · intro x xs rest hwf hneed
        have hwx : wfJ x ∧ wfElems xs := hwf
        have hnx : needJ x ≤ fuel ∧ needElems xs ≤ fuel := by
          simp [needElems] at hneed; omega
        cases xs with
        | nil =>
            have hone : serElems [x] ++ Char.ofNat 93 :: rest
                = serJ x ++ Char.ofNat 93 :: rest := by simp [serElems]
            rw [hone]
            simp only [parseElems]
            rw [ihJ x (Char.ofNat 93 :: rest) hwx.1 hnx.1
              (show isDigitCh (Char.ofNat 93) = false by decide)]
            simp +decide
        | cons y ys =>
            have htwo : serElems (x :: y :: ys) ++ Char.ofNat 93 :: rest
                = serJ x ++ Char.ofNat 44 ::
                    (serElems (y :: ys) ++ Char.ofNat 93 :: rest) := by
              simp [serElems]
            rw [htwo]
            simp only [parseElems]
            rw [ihJ x (Char.ofNat 44 :: (serElems (y :: ys) ++ Char.ofNat 93 :: rest))
              hwx.1 hnx.1 (show isDigitCh (Char.ofNat 44) = false by decide)]
            simp only
            rw [if_pos trivial]
            rw [ihE y ys rest hwx.2 hnx.2]
            simp
      · intro m ms rest hwf hneed
        have hwm : wfStr m.1 ∧ wfJ m.2 ∧ wfMembers ms := hwf
        have hnm : needJ m.2 ≤ fuel ∧ needMembers ms ≤ fuel := by
          simp [needMembers] at hneed; omega
        cases ms with
        | nil =>
            have hone : serMembers [m] ++ Char.ofNat 125 :: rest
                = Char.ofNat 34 :: (m.1.data ++ Char.ofNat 34 ::
                    (Char.ofNat 58 :: (serJ m.2 ++ Char.ofNat 125 :: rest))) := by
              simp [serMembers]
            rw [hone]
            simp only [parseMembers]
            rw [if_pos trivial]
            rw [parseStrBody_ser m.1 hwm.1]
            simp only
            rw [if_pos trivial]
            rw [ihJ m.2 (Char.ofNat 125 :: rest) hwm.2.1 hnm.1
              (show isDigitCh (Char.ofNat 125) = false by decide)]
            simp +decide
        | cons m2 ms2 =>
            have htwo : serMembers (m :: m2 :: ms2) ++ Char.ofNat 125 :: rest
                = Char.ofNat 34 :: (m.1.data ++ Char.ofNat 34 ::
                    (Char.ofNat 58 :: (serJ m.2 ++ Char.ofNat 44 ::
                      (serMembers (m2 :: ms2) ++ Char.ofNat 125 :: rest)))) := by
              simp [serMembers]
            rw [htwo]
            simp only [parseMembers]
            rw [if_pos trivial]
            rw [parseStrBody_ser m.1 hwm.1]
            simp only
            rw [if_pos trivial]
            rw [ihJ m.2 (Char.ofNat 44 ::
              (serMembers (m2 :: ms2) ++ Char.ofNat 125 :: rest))
              hwm.2.1 hnm.1 (show isDigitCh (Char.ofNat 44) = false by decide)]
            simp only
            rw [if_pos trivial]
            rw [ihM m2 ms2 rest hwm.2.2 hnm.2]
            simp

mutual

theorem needJ_le : (v : Json) → needJ v ≤ (serJ v).length
  | .nullV => by simp [needJ, serJ]
  | .boolV b => by cases b <;> simp [needJ, serJ]
  | .intV n => by
      have h1 : 1 ≤ (natChars n.natAbs).length :=
        List.length_pos.mpr (natChars_ne_nil n.natAbs)
      by_cases hn : n < 0 <;> simp [needJ, serJ, hn] <;> omega
  | .strV s => by simp [needJ, serJ]
  | .arrV xs => by
      have h := needElems_le xs
      simp only [needJ, serJ, List.length_cons, List.length_append,
        List.length_singleton]
      omega
  | .objV ms => by
      have h := needMembers_le ms
      simp only [needJ, serJ, List.length_cons, List.length_append,
        List.length_singleton]
      omega

theorem needElems_le : (xs : List Json) → needElems xs ≤ (serElems xs).length + 1
  | [] => by simp [needElems, serElems]
  | [x] => by
      have h := needJ_le x
      simp only [needElems, serElems, needElems]
      omega
  | x :: y :: ys => by
      have h1 := needJ_le x
      have h2 := needElems_le (y :: ys)
      rw [show needElems (x :: y :: ys)
        = 1 + max (needJ x) (needElems (y :: ys)) from rfl]
      simp only [serElems, List.length_append, List.length_cons]
      omega

theorem needMembers_le :
    (ms : List (String × Json)) → needMembers ms ≤ (serMembers ms).length + 1
  | [] => by simp [needMembers, serMembers]
  | [m] => by
      have h := needJ_le m.2
      simp only [needMembers, serMembers, needMembers, List.length_cons,
        List.length_append]
      omega
  | m :: m2 :: ms2 => by
      have h1 := needJ_le m.2
      have h2 := needMembers_le (m2 :: ms2)
      rw [show needMembers (m :: m2 :: ms2)
        = 1 + max (needJ m.2) (needMembers (m2 :: ms2)) from rfl]
      simp only [serMembers, List.length_append, List.length_cons]
      omega

end

/-- The rapidjson writer/parser round trip on well-formed documents: the
stored bytes of `insertScalar` parse back to the same document. -/
theorem jsonParse_serialize (v : Json) (h : wfJ v) :
    jsonParseDoc (jsonSerialize v) = some v := by
  have hp := (parse_ser_main ((serJ v).length + 1)).1 v [] h
    (le_trans (needJ_le v) (by omega)) trivial
  rw [List.append_nil] at hp
  unfold jsonParseDoc jsonSerialize
  show (match parseJ ((serJ v).length + 1) (serJ v) with
    | some (w, []) => some w
    | _ => none) = some v
  rw [hp]

/-! ## Lemmas: the key-value engine -/

theorem kvGet_kvPut (store : KVStore) (key value : String) :
    kvGet (kvPut store key value) key = some value := by
  induction store with
  | nil => simp [kvPut, kvGet]
  | cons p rest ih =>
      by_cases h : p.1 = key
      · simp [kvPut, kvGet, h]
      · simp [kvPut, kvGet, h, ih]

/-- C1: upsert/query round-trip.  For every well-formed document `d` with
integer id `i`, if `upsert(i, d)` completes (the key-value engine
acknowledging the write), then `query(i)` returns a document equal to `d`
field by field. -/
theorem C1_upsert_query_roundtrip (db : VectorDB) (id : Nat) (d : Json)
    (ty : IndexType) (db2 : VectorDB) (hwf : wfJ d)
    (h : upsert db id d ty = .ok db2) :
    query db2 id = some d := by
  cases d with
  | nullV => simp [upsert] at h
  | boolV b => simp [upsert] at h
  | intV n => simp [upsert] at h
  | strV s => simp [upsert] at h
  | arrV xs => simp [upsert] at h
  | objV fields =>
      simp only [upsert] at h
      cases hs2 : step2RemoveOld db (getScalar db.scalarStorage id) id ty with
      | error e => simp [hs2] at h
      | ok db1 =>
          simp only [hs2] at h
          cases hv : extractVec fields with
          | error e => simp [hv] at h
          | ok nv =>
              simp only [hv] at h
              cases hf : filterLoop (getScalar db.scalarStorage id) id
                  (step3Insert db1 nv id ty).filterIndex fields with
              | error e => simp [hf] at h
              | ok f2 =>
                  simp only [hf, Except.ok.injEq] at h
                  subst h
                  unfold query getScalar insertScalar
                  rw [kvGet_kvPut]
                  exact jsonParse_serialize _ hwf

/-- C1 witness: the spec's minimal round-trip record (test A) through a
fresh database, at the concrete post-upsert state. -/
theorem C1_witness :
    wfJ (Json.objV [("id", .intV 10), ("vectors", .arrV [.intV 1, .intV 2]),
      ("name", .strV "A"), ("category", .intV 100)]) ∧
    upsert initialVectorDB 10
        (Json.objV [("id", .intV 10), ("vectors", .arrV [.intV 1, .intV 2]),
          ("name", .strV "A"), ("category", .intV 100)]) .FLAT
      = .ok { scalarStorage :=
                [("10", String.mk (serJ (Json.objV [("id", .intV 10),
                  ("vectors", .arrV [.intV 1, .intV 2]), ("name", .strV "A"),
                  ("category", .intV 100)])))],
              filterIndex := [("category", [(100, [10])])],
              flatIndex := [(10, [1, 2])], hnswIndex := [] } ∧
    query { scalarStorage :=
              [("10", String.mk (serJ (Json.objV [("id", .intV 10),
                ("vectors", .arrV [.intV 1, .intV 2]), ("name", .strV "A"),
                ("category", .intV 100)])))],
            filterIndex := [("category", [(100, [10])])],
            flatIndex := [(10, [1, 2])], hnswIndex := [] } 10
      = some (Json.objV [("id", .intV 10), ("vectors", .arrV [.intV 1, .intV 2]),
          ("name", .strV "A"), ("category", .intV 100)]) :=
  ⟨by decide, by decide,
    C1_upsert_query_roundtrip initialVectorDB 10 _ .FLAT _ (by decide) (by decide)⟩

/-! ## Lemmas: sorted-insert maps and bitmaps -/

theorem mapFind_mapSet_self {α β : Type} [DecidableEq α] (ltF : α → α → Bool)
    (m : List (α × β)) (k : α) (v : β) :
    mapFind (mapSet ltF m k v) k = some v := by
  induction m with
  | nil => simp [mapSet, mapFind]
  | cons p rest ih =>
      obtain ⟨k0, v0⟩ := p
      by_cases h1 : ltF k k0 = true
      · simp [mapSet, h1, mapFind]
      · by_cases h2 : k = k0
        · subst h2
          simp [mapSet, h1, mapFind]
        · have h3 : ¬(k0 = k) := fun hh => h2 hh.symm
          simp [mapSet, h1, h2, mapFind, h3, ih]

theorem mapFind_mapSet_ne {α β : Type} [DecidableEq α] (ltF : α → α → Bool)
    (m : List (α × β)) (k : α) (v : β) (k' : α) (hne : k' ≠ k) :
    mapFind (mapSet ltF m k v) k' = mapFind m k' := by
  have hne2 : ¬(k = k') := fun hh => hne hh.symm
  induction m with
  | nil => simp [mapSet, mapFind, hne2]
  | cons p rest ih =>
      obtain ⟨k0, v0⟩ := p
      by_cases h1 : ltF k k0 = true
      · simp [mapSet, h1, mapFind, hne2]
      · by_cases h2 : k = k0
        · subst h2
          simp [mapSet, h1, mapFind, hne2]
        · simp [mapSet, h1, h2, mapFind, ih]

theorem mem_mapSet_sub {α β : Type} [DecidableEq α] (ltF : α → α → Bool)
    (m : List (α × β)) (k : α) (v : β) (p : α × β)
    (hp : p ∈ mapSet ltF m k v) : p = (k, v) ∨ p ∈ m := by
  induction m with
  | nil => simpa [mapSet] using hp
  | cons q rest ih =>
      obtain ⟨k0, v0⟩ := q
      by_cases h1 : ltF k k0 = true
      · simp only [mapSet, if_pos h1, List.mem_cons] at hp
        rcases hp with h | h | h
        · exact Or.inl h
        · exact Or.inr (by simp [h])
        · exact Or.inr (List.mem_cons_of_mem _ h)
      · by_cases h2 : k = k0
        · subst h2
          rw [show mapSet ltF ((k, v0) :: rest) k v = (k, v) :: rest from by
            simp [mapSet, h1]] at hp
          rcases List.mem_cons.mp hp with h | h
          · exact Or.inl h
          · exact Or.inr (List.mem_cons_of_mem _ h)
        · simp only [mapSet, if_neg h1, if_neg h2, List.mem_cons] at hp
          rcases hp with h | h
          · exact Or.inr (by simp [h])
          · rcases ih h with h3 | h3
            · exact Or.inl h3
            · exact Or.inr (List.mem_cons_of_mem _ h3)

theorem mem_bmAdd (b : Bitmap) (x a : Nat) :
    a ∈ bmAdd b x ↔ a = x ∨ a ∈ b := by
  induction b with
  | nil => simp [bmAdd]
  | cons y ys ih =>
      by_cases h1 : x < y
      · simp [bmAdd, h1]
      · by_cases h2 : x = y
        · subst h2
          simp only [bmAdd, if_neg h1, if_pos rfl]
          constructor
          · intro h; exact Or.inr h
          · intro h
            rcases h with h | h
            · simp [h]
            · exact h
        · simp only [bmAdd, if_neg h1, if_neg h2, List.mem_cons, ih]
          tauto

theorem bmContains_iff (b : Bitmap) (x : Nat) :
    bmContains b x = true ↔ x ∈ b := by
  simp [bmContains, List.elem_iff]

theorem bmAdd_sorted (b : Bitmap) (x : Nat)
    (h : b.Pairwise (fun a c : Nat => a < c)) :
    (bmAdd b x).Pairwise (fun a c : Nat => a < c) := by
  induction b with
  | nil => simp [bmAdd]
  | cons y ys ih =>
      rw [List.pairwise_cons] at h
      by_cases h1 : x < y
      · simp only [bmAdd, if_pos h1, List.pairwise_cons]
        refine ⟨?_, h.1, h.2⟩
        intro a ha
        rcases List.mem_cons.mp ha with rfl | ha2
        · exact h1
        · exact lt_trans h1 (h.1 a ha2)
      · by_cases h2 : x = y
        · subst h2
          simpa [bmAdd, h1, List.pairwise_cons] using h
        · have h3 : y < x := by omega
          simp only [bmAdd, if_neg h1, if_neg h2, List.pairwise_cons]
          refine ⟨?_, ih h.2⟩
          intro a ha
          rcases (mem_bmAdd ys x a).mp ha with rfl | ha2
          · exact h3
          · exact h.1 a ha2

theorem bmRemove_sublist (b : Bitmap) (x : Nat) : (bmRemove b x).Sublist b := by
  induction b with
  | nil => simp [bmRemove]
  | cons y ys ih =>
      by_cases h : x = y
      · simp only [bmRemove, if_pos h]
        exact (List.sublist_cons_self y ys)
      · simp only [bmRemove, if_neg h]
        exact ih.cons₂ y

theorem bmRemove_sorted (b : Bitmap) (x : Nat)
    (h : b.Pairwise (fun a c : Nat => a < c)) :
    (bmRemove b x).Pairwise (fun a c : Nat => a < c) :=
  h.sublist (bmRemove_sublist b x)

theorem mem_bmRemove (b : Bitmap) (x a : Nat) (hnd : b.Nodup) :
    a ∈ bmRemove b x ↔ a ∈ b ∧ a ≠ x := by
  induction b with
  | nil => simp [bmRemove]
  | cons y ys ih =>
      rw [List.nodup_cons] at hnd
      by_cases h : x = y
      · subst h
        simp only [bmRemove, if_pos rfl, List.mem_cons]
        constructor
        · intro ha
          exact ⟨Or.inr ha, fun hax => hnd.1 (hax ▸ ha)⟩
        · rintro ⟨ha | ha, hax⟩
          · exact absurd ha.symm (fun hh => hax hh.symm)
          · exact ha
      · simp only [bmRemove, if_neg h, List.mem_cons, ih hnd.2]
        constructor
        · rintro (rfl | ⟨ha, hax⟩)
          · exact ⟨Or.inl rfl, fun hax => h hax.symm⟩
          · exact ⟨Or.inr ha, hax⟩
        · rintro ⟨rfl | ha, hax⟩
          · exact Or.inl rfl
          · exact Or.inr ⟨ha, hax⟩

theorem postingBitmap_add (s : FilterIndexState) (fieldName : String)
    (value : Int) (id : Nat) :
    postingBitmap (addIntFieldFilter s fieldName value id) fieldName value
      = some [id % U32MOD] := by
  simp only [addIntFieldFilter, postingBitmap]
  rw [mapFind_mapSet_self]
  simp [mapFind_mapSet_self, bmAdd]

/-- C3 counterexample: the claim says `add(field, value, id)` preserves
identifiers already present in an existing bitmap at
`posting[field][value]`.  On the state with `posting[f][5] = {1}`,
`addIntFieldFilter f 5 2` installs a fresh bitmap `{2}`: identifier 1 was
present before the call and is gone after it. -/
theorem C3_counterexample :
    bmContains ((postingBitmap [("f", [((5 : Int), [1])])] "f" 5).getD []) 1
      = true ∧
    addIntFieldFilter [("f", [((5 : Int), [1])])] "f" 5 2
      = [("f", [((5 : Int), [2])])] ∧
    bmContains
      ((postingBitmap (addIntFieldFilter [("f", [((5 : Int), [1])])] "f" 5 2)
        "f" 5).getD []) 1 = false := by
  decide

/-- C3 amended: `addIntFieldFilter field value id` installs a fresh
singleton bitmap `{id mod 2^32}` at `posting[field][value]`, overwriting
any bitmap already stored at that key; identifiers previously present at
that key are preserved only when no bitmap existed there (as at its only
call site, the unregistered-field branch of `updateIntFieldFilter`). -/
theorem C3_amended (s : FilterIndexState) (fieldName : String) (value : Int)
    (id : Nat) :
    postingBitmap (addIntFieldFilter s fieldName value id) fieldName value
      = some [id % U32MOD] :=
  postingBitmap_add s fieldName value id

/-- C4: the claim says upsert completes when the new document carries an
integer field absent from the existing record, treating it as newly
added.  The code evaluates `existingData[fieldName].GetInt64()`
unconditionally whenever a previous record exists; `operator[]` on the
missing member asserts (undefined behaviour in release builds).  Concrete
run: insert record 10 without `category`, then upsert record 10 with
`category: 100` — the second upsert hits the assertion branch instead of
completing. -/
theorem C4_missing_member_asserts :
    upsert initialVectorDB 10
        (Json.objV [("id", .intV 10),
          ("vectors", .arrV [.intV 1, .intV 2, .intV 3])]) .FLAT
      = .ok { scalarStorage :=
                [("10", String.mk (serJ (Json.objV [("id", .intV 10),
                  ("vectors", .arrV [.intV 1, .intV 2, .intV 3])])))],
              filterIndex := [], flatIndex := [(10, [1, 2, 3])],
              hnswIndex := [] } ∧
    upsert { scalarStorage :=
                [("10", String.mk (serJ (Json.objV [("id", .intV 10),
                  ("vectors", .arrV [.intV 1, .intV 2, .intV 3])])))],
              filterIndex := [], flatIndex := [(10, [1, 2, 3])],
              hnswIndex := [] } 10
        (Json.objV [("id", .intV 10),
          ("vectors", .arrV [.intV 1, .intV 2, .intV 3]),
          ("category", .intV 100)]) .FLAT
      = .error () := by
  constructor
  · decide
  · decide

/-- C5: the claim says `deserialize(serialize(m))` restores the posting
map.  The portable bitmap bytes are spliced verbatim into a
newline-terminated line, but a bitmap containing record id 10 serializes
with an embedded `0x0A` byte (the array container stores the 16-bit value
10 little-endian), so the newline-splitting reader truncates the line
mid-container and then throws (`std::stoll` on the non-numeric
continuation line): the round trip fails on the posting map
`{category ↦ {100 ↦ {10}}}` — the very data of the repository's own
snapshot test. -/
theorem C5_serialize_roundtrip_fails :
    (10 : Nat) ∈ portableSerialize [10] ∧
    deserializeIntFieldFilter
        (serializeIntFieldFilter [("category", [((100 : Int), [10])])])
      = .error () ∧
    deserializeIntFieldFilter
        (serializeIntFieldFilter [("category", [((100 : Int), [11])])])
      = .ok [("category", [((100 : Int), [11])])] := by
  refine ⟨by decide, by decide, by decide⟩

/-- C7: the claim says the WAL reader splits only on the first three `|`
and treats the entire remainder of the line as the JSON payload.  The
fourth `std::getline` also uses `|` as its delimiter, so a `|` inside a
JSON string truncates the payload: for the entry whose payload serializes
`{"name":"a|b"}`, the reader hands `rapidjson::Parse` only the prefix up
to the `|` and the parse fails, although the untruncated payload parses
fine. -/
theorem C7_payload_truncated_at_pipe :
    readNextWALLog
        [mkWALLine (2, "1.0", "upsert",
          jsonSerialize (Json.objV [("name", .strV "a|b")]))] 1 0
      = .ok { opType := "upsert",
              jsonRaw := some (String.mk
                ((jsonSerialize (Json.objV [("name", .strV "a|b")])).data.takeWhile
                  (fun c => c ≠ Char.ofNat 124))),
              jsonData := none, currentID := 2, linesRemaining := [],
              streamCleared := true } ∧
    String.mk ((jsonSerialize (Json.objV [("name", .strV "a|b")])).data.takeWhile
        (fun c => c ≠ Char.ofNat 124))
      ≠ jsonSerialize (Json.objV [("name", .strV "a|b")]) ∧
    (jsonParseDoc (jsonSerialize (Json.objV [("name", .strV "a|b")]))).isSome
      = true := by
  refine ⟨by rfl, by decide, by decide⟩

/-! ## Lemmas: WAL line framing -/

theorem takeWhile_all {p : Char → Bool} (l : List Char)
    (hl : ∀ c ∈ l, p c = true) : l.takeWhile p = l := by
  have := takeWhile_append_all l [] hl trivial
  simpa using this

theorem dropWhile_all {p : Char → Bool} (l : List Char)
    (hl : ∀ c ∈ l, p c = true) : l.dropWhile p = [] := by
  have := dropWhile_append_all l [] hl trivial
  simpa using this

theorem lineLogSeq_format (n : Nat) (v o p : String) :
    lineLogSeq (formatWALLine n v o p) = n := by
  have h124 : headNot isDigitCh (Char.ofNat 124 :: (v.data ++ Char.ofNat 124 ::
      (o.data ++ Char.ofNat 124 :: p.data))) := by
    show isDigitCh (Char.ofNat 124) = false
    decide
  dsimp only [lineLogSeq, formatWALLine]
  simp only [List.append_assoc, List.cons_append]
  rw [takeWhile_append_all _ _ (natChars_digits n) h124]
  exact digitsVal_natChars n

/-- C9 counterexample: the claim says the first append writes log
sequence number 1.  From a fresh persistence module (`current_id = 1`,
no sidecar) the first `writeWALLog` emits an entry with sequence 2,
because `increaseID` pre-increments — in agreement with the repository's
own unit test (`test_persistence_constructor_and_id`). -/
theorem C9_counterexample :
    freshPersistence.currentID = 1 ∧
    (writeWALLog freshPersistence "upsert" (Json.objV []) "1.0" true).walLines.map
        lineLogSeq = [2] ∧
    (2 : Nat) ≠ 1 := by
  refine ⟨rfl, ?_, by decide⟩
  simp [writeWALLog, increaseID, freshPersistence, lineLogSeq_format]

/-- C9 amended: `current_id` is initialized to 1 but holds the *last
assigned* log sequence number, not the next one: `increaseID`
pre-increments before returning, so the first append from a fresh module
writes an entry with log sequence number 2 (and the counter moves to 2
whether or not the write succeeds). -/
theorem C9_amended :
    freshPersistence.currentID = 1 ∧
    (∀ (op : String) (d : Json) (ver : String),
      (writeWALLog freshPersistence op d ver true).walLines.map lineLogSeq
        = [2]) ∧
    (∀ (op : String) (d : Json) (ver : String) (ok : Bool),
      (writeWALLog freshPersistence op d ver ok).currentID = 2) := by
  refine ⟨rfl, ?_, ?_⟩
  · intro op d ver
    simp [writeWALLog, increaseID, freshPersistence, lineLogSeq_format]
  · intro op d ver ok
    simp [writeWALLog, increaseID, freshPersistence]

theorem applyWALWrites_seqs :
    ∀ (ws : List (String × Json × String × Bool)) (s : PersistenceState),
    (s.walLines.map lineLogSeq).Pairwise (fun a b => a < b) →
    (∀ x ∈ s.walLines.map lineLogSeq, x ≤ s.currentID) →
    ((applyWALWrites s ws).walLines.map lineLogSeq).Pairwise (fun a b => a < b) ∧
    (applyWALWrites s ws).currentID = s.currentID + ws.length ∧
    (∀ x ∈ (applyWALWrites s ws).walLines.map lineLogSeq,
      x ≤ (applyWALWrites s ws).currentID) := by
  intro ws
  induction ws with
  | nil =>
      intro s h1 h2
      exact ⟨h1, by simp [applyWALWrites], h2⟩
  | cons w ws ih =>
      intro s h1 h2
      have hstep : applyWALWrites s (w :: ws)
          = applyWALWrites (writeWALLog s w.1 w.2.1 w.2.2.1 w.2.2.2) ws := rfl
      have hcur : (writeWALLog s w.1 w.2.1 w.2.2.1 w.2.2.2).currentID
          = s.currentID + 1 := by
        simp [writeWALLog, increaseID]
      have hlines : (writeWALLog s w.1 w.2.1 w.2.2.1 w.2.2.2).walLines.map
            lineLogSeq
          = if w.2.2.2 = true
            then s.walLines.map lineLogSeq ++ [s.currentID + 1]
            else s.walLines.map lineLogSeq := by
        by_cases hok : w.2.2.2 = true <;>
          simp [writeWALLog, increaseID, hok, lineLogSeq_format]
      have h1b : ((writeWALLog s w.1 w.2.1 w.2.2.1 w.2.2.2).walLines.map
          lineLogSeq).Pairwise (fun a b => a < b) := by
        rw [hlines]
        by_cases hok : w.2.2.2 = true
        · rw [if_pos hok, List.pairwise_append]
          refine ⟨h1, by simp, ?_⟩
          intro a ha b hb
          simp only [List.mem_singleton] at hb
          subst hb
          have := h2 a ha
          omega
        · rw [if_neg hok]
          exact h1
      have h2b : ∀ x ∈ (writeWALLog s w.1 w.2.1 w.2.2.1 w.2.2.2).walLines.map
          lineLogSeq, x ≤ (writeWALLog s w.1 w.2.1 w.2.2.1 w.2.2.2).currentID := by
        rw [hlines, hcur]
        by_cases hok : w.2.2.2 = true
        · rw [if_pos hok]
          intro x hx
          rcases List.mem_append.mp hx with hx | hx
          · have := h2 x hx; omega
          · simp only [List.mem_singleton] at hx; omega
        · rw [if_neg hok]
          intro x hx
          have := h2 x hx
          omega
      obtain ⟨g1, g2, g3⟩ := ih (writeWALLog s w.1 w.2.1 w.2.2.1 w.2.2.2) h1b h2b
      rw [hstep]
      refine ⟨g1, ?_, g3⟩
      rw [g2, hcur]
      simp [Nat.add_assoc, Nat.add_comm 1 ws.length]

/-- C8: WAL monotonicity.  For every sequence of append requests on a
fresh persistence module (each request carrying its own success/failure
of the stream write), the log sequence numbers of the lines that reached
the log file are strictly increasing, and the counter advances by one per
request — also for failed writes, so identifiers are never reused. -/
theorem C8_wal_monotonic (ws : List (String × Json × String × Bool)) :
    ((applyWALWrites freshPersistence ws).walLines.map lineLogSeq).Pairwise
      (fun a b => a < b) ∧
    (applyWALWrites freshPersistence ws).currentID = 1 + ws.length := by
  have h := applyWALWrites_seqs ws freshPersistence (by simp [freshPersistence])
    (by simp [freshPersistence])
  exact ⟨h.1, h.2.1⟩

/-- C10: implicit 32-bit identifier truncation.  The posting updates pass
the 64-bit record id through the C `uint64_t → uint32_t` conversion, so
`add` records `id mod 2^32`; the FAISS selector `is_member` tests the
bitmap at `(uint32_t) id`; consequently identifiers congruent modulo
`2^32` produce identical posting states and identical membership answers. -/
theorem C10_id_truncation (s : FilterIndexState) (f : String) (v : Int)
    (o : Option Int) (b : Bitmap) (id idB : Nat) (lbl lblB : Int)
    (hid : id % U32MOD = idB % U32MOD)
    (hlbl : lbl % (4294967296 : Int) = lblB % (4294967296 : Int)) :
    addIntFieldFilter s f v id = addIntFieldFilter s f v idB ∧
    updateIntFieldFilter s f o v id = updateIntFieldFilter s f o v idB ∧
    isMemberSelector b lbl = isMemberSelector b lblB ∧
    postingBitmap (addIntFieldFilter s f v id) f v = some [id % U32MOD] ∧
    isMemberSelector b lbl = bmContains b ((lbl % (4294967296 : Int)).toNat) := by
  refine ⟨?_, ?_, ?_, postingBitmap_add s f v id, rfl⟩
  · unfold addIntFieldFilter
    rw [hid]
  · unfold updateIntFieldFilter addIntFieldFilter
    rw [hid]
  · unfold isMemberSelector
    rw [hlbl]

/-- C10 witness: identifiers 5 and 2^32 + 5 are indistinguishable. -/
theorem C10_witness :
    (5 : Nat) % U32MOD = (4294967301 : Nat) % U32MOD ∧
    (5 : Int) % (4294967296 : Int) = (4294967301 : Int) % (4294967296 : Int) ∧
    (addIntFieldFilter [] "f" 0 5 = addIntFieldFilter [] "f" 0 4294967301 ∧
     updateIntFieldFilter [] "f" none 0 5
        = updateIntFieldFilter [] "f" none 0 4294967301 ∧
     isMemberSelector [5] 5 = isMemberSelector [5] 4294967301 ∧
     postingBitmap (addIntFieldFilter [] "f" 0 5) "f" 0 = some [5 % U32MOD] ∧
     isMemberSelector [5] 5
        = bmContains [5] (((5 : Int) % (4294967296 : Int)).toNat)) :=
  ⟨by decide, by decide,
    C10_id_truncation [] "f" 0 none [5] 5 4294967301 5 4294967301
      (by decide) (by decide)⟩

theorem natChars_no_pipe (n : Nat) : ∀ c ∈ natChars n, c ≠ Char.ofNat 124 :=
  fun c hc =>
    (digit_ne_specials c (natChars_digits n c hc)).2.2.2.2.2.2.2.2.2.2.1

theorem getlineField_split (field rest : List Char)
    (hf : ∀ c ∈ field, c ≠ Char.ofNat 124) :
    getlineField (Char.ofNat 124) (field ++ Char.ofNat 124 :: rest)
      = (field, rest) := by
  have hall : ∀ c ∈ field, (fun c => decide (c ≠ Char.ofNat 124)) c = true := by
    intro c hc
    simpa using hf c hc
  have hhead : headNot (fun c => decide (c ≠ Char.ofNat 124))
      (Char.ofNat 124 :: rest) := by simp [headNot]
  unfold getlineField
  rw [takeWhile_append_all _ _ hall hhead, dropWhile_append_all _ _ hall hhead]

theorem getlineField_nodelim (cs : List Char)
    (h : ∀ c ∈ cs, c ≠ Char.ofNat 124) :
    getlineField (Char.ofNat 124) cs = (cs, []) := by
  have hall : ∀ c ∈ cs, (fun c => decide (c ≠ Char.ofNat 124)) c = true := by
    intro c hc
    simpa using h c hc
  unfold getlineField
  rw [takeWhile_all _ hall, dropWhile_all _ hall]

theorem stoull_natChars (n : Nat) : stoullModel (natChars n) = .ok n := by
  unfold stoullModel
  rw [takeWhile_all _ (natChars_digits n)]
  simp [natChars_ne_nil n, digitsVal_natChars n]

/-- C6: replay skip.  For every log stream of well-formed entry lines and
every snapshot cursor, `readNextWALLog` behaves exactly as the claim
describes (`readNextSpec`): it skips every entry whose log sequence is at
most the cursor, returns the first entry whose sequence exceeds it with
the out-parameters populated from that entry, and at end-of-file clears
the op out-parameter to the empty string and leaves the stream usable. -/
theorem C6_replay_skip :
    ∀ (entries : List WalEntryT) (cur snap : Nat),
    (∀ e ∈ entries, wfWalEntry e) →
    readNextWALLog (entries.map mkWALLine) cur snap
      = .ok (readNextSpec entries cur snap) := by
  intro entries
  induction entries with
  | nil =>
      intro cur snap _
      rfl
  | cons e rest ih =>
      intro cur snap hwf
      obtain ⟨hv, ho, hp⟩ := hwf e (List.mem_cons_self _ _)
      have hdata : (mkWALLine e).data
          = natChars e.1 ++ Char.ofNat 124 :: (e.2.1.data ++ Char.ofNat 124 ::
              (e.2.2.1.data ++ Char.ofNat 124 :: e.2.2.2.data)) := by
        dsimp only [mkWALLine, formatWALLine]
        simp [List.append_assoc, List.cons_append]
      rw [List.map_cons]
      simp only [readNextWALLog]
      rw [hdata]
      rw [getlineField_split _ _ (natChars_no_pipe e.1)]
      rw [getlineField_split _ _ (fun c hc => (hv c hc).1)]
      rw [getlineField_split _ _ (fun c hc => (ho c hc).1)]
      rw [getlineField_nodelim _ (fun c hc => (hp c hc).1)]
      rw [stoull_natChars e.1]
      have hmax : (if e.1 > cur then e.1 else cur) = max cur e.1 := by
        rw [Nat.max_def]
        split <;> split <;> omega
      by_cases hsnap : e.1 > snap
      · simp only [hmax, if_pos hsnap, readNextSpec]
      · simp only [hmax, if_neg hsnap, readNextSpec]
        exact ih (max cur e.1) snap (fun x hx => hwf x (List.mem_cons_of_mem e hx))

/-- C6 witness: a two-entry log with snapshot cursor 2 — the reader skips
entry 2 and surfaces entry 3 with its payload; on the entry-free stream it
returns the cleared-op end-of-file result. -/
theorem C6_witness :
    (∀ e ∈ [((2 : Nat), "1.0", "upsert", "null"),
            ((3 : Nat), "1.0", "upsert", "true")], wfWalEntry e) ∧
    readNextWALLog
        ([((2 : Nat), "1.0", "upsert", "null"),
          ((3 : Nat), "1.0", "upsert", "true")].map mkWALLine) 1 2
      = .ok (readNextSpec
          [((2 : Nat), "1.0", "upsert", "null"),
           ((3 : Nat), "1.0", "upsert", "true")] 1 2) :=
  ⟨by decide,
    C6_replay_skip [((2 : Nat), "1.0", "upsert", "null"),
      ((3 : Nat), "1.0", "upsert", "true")] 1 2 (by decide)⟩

/-! ## Lemmas: towards the filter invariant (C2) -/

theorem boolExt {a b : Bool} (h : a = true ↔ b = true) : a = b := by
  cases a <;> cases b <;> simp_all

theorem mapFind_mem {α β : Type} [DecidableEq α] (m : List (α × β)) (k : α)
    (b : β) (h : mapFind m k = some b) : (k, b) ∈ m := by
  induction m with
  | nil => simp [mapFind] at h
  | cons p rest ih =>
      obtain ⟨k0, v0⟩ := p
      by_cases hk : k0 = k
      · subst hk
        have h2 : v0 = b := by simpa [mapFind] using h
        subst h2
        exact List.mem_cons_self _ _
      · simp only [mapFind, if_neg hk] at h
        exact List.mem_cons_of_mem _ (ih h)

theorem kvGet_kvPut_ne (store : KVStore) (key value key2 : String)
    (hne : key2 ≠ key) :
    kvGet (kvPut store key value) key2 = kvGet store key2 := by
  have hne2 : ¬(key = key2) := fun hh => hne hh.symm
  induction store with
  | nil => simp [kvPut, kvGet, hne2]
  | cons p rest ih =>
      obtain ⟨k0, v0⟩ := p
      by_cases h : k0 = key
      · subst h
        simp [kvPut, kvGet, hne2]
      · simp [kvPut, kvGet, h, ih]

theorem natStr_inj (a b : Nat) (h : natStr a = natStr b) : a = b := by
  have hchars : natChars a = natChars b := congrArg String.data h
  have := digitsVal_natChars a
  rw [hchars, digitsVal_natChars b] at this
  omega

theorem contains_bmAdd (b : Bitmap) (x y : Nat) :
    bmContains (bmAdd b x) y = true ↔ y = x ∨ bmContains b y = true := by
  simp [bmContains_iff, mem_bmAdd]

theorem sorted_nodup (b : Bitmap) (h : b.Pairwise (fun a c : Nat => a < c)) :
    b.Nodup :=
  h.imp (fun hlt => ne_of_lt hlt)

theorem contains_bmRemove (b : Bitmap) (x y : Nat)
    (h : b.Pairwise (fun a c : Nat => a < c)) :
    bmContains (bmRemove b x) y = true ↔ bmContains b y = true ∧ y ≠ x := by
  simp [bmContains_iff, mem_bmRemove b x y (sorted_nodup b h)]

theorem memF_eq (s : FilterIndexState) (f : String) (v : Int) (x : Nat) :
    memF s f v x
      = match mapFind s f with
        | none => false
        | some vm => bmContains ((mapFind vm v).getD []) x := by
  unfold memF postingBitmap
  cases mapFind s f <;> simp [bmContains]

theorem update_find (s : FilterIndexState) (f : String) (o : Option Int)
    (v : Int) (id : Nat) (hwf : filterWF s) :
    filterWF (updateIntFieldFilter s f o v id) ∧
    (∀ ff, ff ≠ f →
      mapFind (updateIntFieldFilter s f o v id) ff = mapFind s ff) ∧
    ∃ vmNew, mapFind (updateIntFieldFilter s f o v id) f = some vmNew ∧
      mapFind vmNew v
        = some (bmAdd
            ((if o = some v
              then (mapFind ((mapFind s f).getD []) v).map
                (fun b => bmRemove b (id % U32MOD))
              else mapFind ((mapFind s f).getD []) v).getD []) (id % U32MOD)) ∧
      (∀ w, w ≠ v → mapFind vmNew w
        = (if o = some w
           then (mapFind ((mapFind s f).getD []) w).map
             (fun b => bmRemove b (id % U32MOD))
           else mapFind ((mapFind s f).getD []) w)) := by
  have hsvm : ∀ vm, mapFind s f = some vm → ∀ vb ∈ vm,
      vb.2.Pairwise (fun a c : Nat => a < c) := by
    intro vm hvm vb hvb
    exact hwf (f, vm) (mapFind_mem s f vm hvm) vb hvb
  unfold updateIntFieldFilter
  cases hsf : mapFind s f with
  | none =>
      unfold addIntFieldFilter
      simp only [hsf, Option.getD_none]
      refine ⟨?_, ?_, ?_⟩
      · intro fvm hfvm vb hvb
        rcases mem_mapSet_sub _ _ _ _ _ hfvm with hq | hq
        · subst hq
          rcases mem_mapSet_sub _ _ _ _ _ hvb with hq2 | hq2
          · subst hq2
            simp [bmAdd]
          · simp [mapSet] at hq2
        · exact hwf fvm hq vb hvb
      · intro ff hff
        exact mapFind_mapSet_ne _ _ _ _ _ hff
      · refine ⟨mapSet intLt [] v (bmAdd [] (id % U32MOD)),
          mapFind_mapSet_self _ _ _ _, ?_, ?_⟩
        · rw [mapFind_mapSet_self]
          simp [mapFind]
        · intro w hw
          rw [mapFind_mapSet_ne _ _ _ _ _ hw]
          simp [mapFind]
  | some vm =>
      simp only [hsf, Option.getD_some]
      have hvmS : ∀ vb ∈ vm, vb.2.Pairwise (fun a c : Nat => a < c) :=
        hsvm vm hsf
      -- characterize the removal layer vm1
      obtain ⟨vm1, hvm1eq, hvm1S, hvm1v, hvm1w⟩ :
          ∃ vm1, (match o with
            | some ov =>
                match mapFind vm ov with
                | some oldBitmap =>
                    mapSet intLt vm ov (bmRemove oldBitmap (id % U32MOD))
                | none => vm
            | none => vm) = vm1 ∧
          (∀ vb ∈ vm1, vb.2.Pairwise (fun a c : Nat => a < c)) ∧
          (mapFind vm1 v
            = (if o = some v
               then (mapFind vm v).map (fun b => bmRemove b (id % U32MOD))
               else mapFind vm v)) ∧
          (∀ w, w ≠ v → mapFind vm1 w
            = (if o = some w
               then (mapFind vm w).map (fun b => bmRemove b (id % U32MOD))
               else mapFind vm w)) := by
        cases o with
        | none =>
            refine ⟨vm, rfl, hvmS, by simp, fun w hw => by simp⟩
        | some ov =>
            cases hov : mapFind vm ov with
            | none =>
                refine ⟨vm, by simp only [hov], hvmS, ?_, ?_⟩
                · by_cases hv : ov = v
                  · subst hv
                    simp [hov]
                  · rw [if_neg (by simpa using hv)]
                · intro w hw
                  by_cases hvw : ov = w
                  · subst hvw
                    simp [hov]
                  · rw [if_neg (by simpa using hvw)]
            | some ob =>
                refine ⟨mapSet intLt vm ov (bmRemove ob (id % U32MOD)),
                  by simp only [hov], ?_, ?_, ?_⟩
                · intro vb hvb
                  rcases mem_mapSet_sub _ _ _ _ _ hvb with hq | hq
                  · subst hq
                    exact bmRemove_sorted _ _ (hsvm vm hsf (ov, ob)
                      (mapFind_mem vm ov ob hov))
                  · exact hvmS vb hq
                · by_cases hv : ov = v
                  · subst hv
                    rw [mapFind_mapSet_self]
                    simp [hov]
                  · rw [mapFind_mapSet_ne _ _ _ _ _ (fun hh => hv hh.symm)]
                    rw [if_neg (by simpa using hv)]
                · intro w hw
                  by_cases hvw : ov = w
                  · subst hvw
                    rw [mapFind_mapSet_self]
                    simp [hov]
                  · rw [mapFind_mapSet_ne _ _ _ _ _ (fun hh => hvw hh.symm)]
                    rw [if_neg (by simpa using hvw)]
      rw [hvm1eq]
      -- characterize the create/add layers vm2 and vm3
      obtain ⟨vm3, hvm3eq, hvm3S, hvm3v, hvm3w⟩ :
          ∃ vm3, (match mapFind (match mapFind vm1 v with
              | some _ => vm1
              | none => mapSet intLt vm1 v []) v with
            | some b =>
                mapSet intLt (match mapFind vm1 v with
                  | some _ => vm1
                  | none => mapSet intLt vm1 v []) v (bmAdd b (id % U32MOD))
            | none =>
                (match mapFind vm1 v with
                 | some _ => vm1
                 | none => mapSet intLt vm1 v [])) = vm3 ∧
          (∀ vb ∈ vm3, vb.2.Pairwise (fun a c : Nat => a < c)) ∧
          (mapFind vm3 v
            = some (bmAdd ((mapFind vm1 v).getD []) (id % U32MOD))) ∧
          (∀ w, w ≠ v → mapFind vm3 w = mapFind vm1 w) := by
        cases hv1 : mapFind vm1 v with
        | some b =>
            simp only [hv1]
            refine ⟨mapSet intLt vm1 v (bmAdd b (id % U32MOD)), rfl, ?_, ?_, ?_⟩
            · intro vb hvb
              rcases mem_mapSet_sub _ _ _ _ _ hvb with hq | hq
              · subst hq
                exact bmAdd_sorted _ _ (hvm1S (v, b) (mapFind_mem vm1 v b hv1))
              · exact hvm1S vb hq
            · rw [mapFind_mapSet_self]
              simp
            · intro w hw
              exact mapFind_mapSet_ne _ _ _ _ _ hw
        | none =>
            simp only [hv1, mapFind_mapSet_self]
            refine ⟨mapSet intLt (mapSet intLt vm1 v []) v
              (bmAdd [] (id % U32MOD)), rfl, ?_, ?_, ?_⟩
            · intro vb hvb
              rcases mem_mapSet_sub _ _ _ _ _ hvb with hq | hq
              · subst hq
                simp [bmAdd]
              · rcases mem_mapSet_sub _ _ _ _ _ hq with hq2 | hq2
                · subst hq2
                  simp
                · exact hvm1S vb hq2
            · rw [mapFind_mapSet_self]
              simp
            · intro w hw
              rw [mapFind_mapSet_ne _ _ _ _ _ hw,
                mapFind_mapSet_ne _ _ _ _ _ hw]
      rw [hvm3eq]
      refine ⟨?_, ?_, vm3, mapFind_mapSet_self _ _ _ _, by rw [hvm3v, hvm1v],
        fun w hw => by rw [hvm3w w hw, hvm1w w hw]⟩
      · intro fvm hfvm vb hvb
        rcases mem_mapSet_sub _ _ _ _ _ hfvm with hq | hq
        · subst hq
          exact hvm3S vb hvb
        · exact hwf fvm hq vb hvb
      · intro ff hff
        exact mapFind_mapSet_ne _ _ _ _ _ hff

theorem update_memF (s : FilterIndexState) (f : String) (o : Option Int)
    (v : Int) (id : Nat) (hwf : filterWF s) :
    filterWF (updateIntFieldFilter s f o v id) ∧
    (∀ ff vv x, ff ≠ f →
      memF (updateIntFieldFilter s f o v id) ff vv x = memF s ff vv x) ∧
    (∀ vv x, x ≠ id % U32MOD →
      memF (updateIntFieldFilter s f o v id) f vv x = memF s f vv x) ∧
    memF (updateIntFieldFilter s f o v id) f v (id % U32MOD) = true ∧
    (∀ w, w ≠ v →
      memF (updateIntFieldFilter s f o v id) f w (id % U32MOD)
        = (memF s f w (id % U32MOD) && !(o == some w))) := by
  obtain ⟨hwf2, hne, vmNew, hfind, hv, hw⟩ := update_find s f o v id hwf
  have hsort : ∀ w b, mapFind ((mapFind s f).getD []) w = some b →
      b.Pairwise (fun a c : Nat => a < c) := by
    intro w b hb
    cases hms : mapFind s f with
    | none =>
        rw [hms] at hb
        simp [mapFind] at hb
    | some vm =>
        rw [hms] at hb
        exact hwf (f, vm) (mapFind_mem s f vm hms) (w, b) (mapFind_mem vm w b hb)
  have hmemS : ∀ vv x, memF s f vv x
      = bmContains ((mapFind ((mapFind s f).getD []) vv).getD []) x := by
    intro vv x
    rw [memF_eq]
    cases hms : mapFind s f
    · simp [mapFind, bmContains, List.contains]
    · simp
  have hmemN : ∀ vv x, memF (updateIntFieldFilter s f o v id) f vv x
      = bmContains ((mapFind vmNew vv).getD []) x := by
    intro vv x
    rw [memF_eq, hfind]
  refine ⟨hwf2, ?_, ?_, ?_, ?_⟩
  · intro ff vv x hff
    rw [memF_eq, memF_eq, hne ff hff]
  · intro vv x hx
    rw [hmemN, hmemS]
    by_cases hvv : vv = v
    · subst hvv
      rw [hv]
      cases hmv : mapFind ((mapFind s f).getD []) vv with
      | none =>
          refine boolExt ?_
          rw [show (if o = some vv
              then (Option.map (fun b => bmRemove b (id % U32MOD)) none)
              else (none : Option Bitmap)) = none by
            rcases o with _ | z
            · rw [if_neg (by simp)]
            · by_cases hz : z = vv
              · subst hz
                rw [if_pos rfl]
                rfl
              · rw [if_neg (by simpa using hz)]]
          simp only [Option.getD_some, Option.getD_none]
          rw [contains_bmAdd]
          constructor
          · rintro (hq | hq)
            · exact absurd hq hx
            · exact hq
          · intro hq
            exact Or.inr hq
      | some b =>
          have hbS : b.Pairwise (fun a c : Nat => a < c) := hsort vv b hmv
          refine boolExt ?_
          by_cases ho : o = some vv
          · rw [if_pos ho]
            simp only [Option.map_some', Option.getD_some]
            rw [contains_bmAdd, contains_bmRemove _ _ _ hbS]
            constructor
            · rintro (hq | ⟨hq, _⟩)
              · exact absurd hq hx
              · exact hq
            · intro hq
              exact Or.inr ⟨hq, hx⟩
          · rw [if_neg ho]
            simp only [Option.getD_some]
            rw [contains_bmAdd]
            constructor
            · rintro (hq | hq)
              · exact absurd hq hx
              · exact hq
            · intro hq
              exact Or.inr hq
    · rw [hw vv hvv]
      cases hmv : mapFind ((mapFind s f).getD []) vv with
      | none =>
          rcases o with _ | z
          · rw [if_neg (by simp)]
          · by_cases hz : some z = some vv
            · rw [if_pos hz]
              rfl
            · rw [if_neg hz]
      | some b =>
          have hbS : b.Pairwise (fun a c : Nat => a < c) := hsort vv b hmv
          by_cases ho : o = some vv
          · rw [if_pos ho]
            simp only [Option.map_some', Option.getD_some]
            refine boolExt ?_
            rw [contains_bmRemove _ _ _ hbS]
            exact ⟨fun hq => hq.1, fun hq => ⟨hq, hx⟩⟩
          · rw [if_neg ho]
  · rw [hmemN, hv]
    simp only [Option.getD_some]
    exact (contains_bmAdd _ _ _).mpr (Or.inl rfl)
  · intro w hww
    rw [hmemN, hmemS, hw w hww]
    cases hmv : mapFind ((mapFind s f).getD []) w with
    | none =>
        have hn : (if o = some w
            then (Option.map (fun b => bmRemove b (id % U32MOD)) none)
            else (none : Option Bitmap)) = none := by
          by_cases ho : o = some w
          · rw [if_pos ho]
            rfl
          · rw [if_neg ho]
        rw [hn]
        simp [bmContains, List.contains]
    | some b =>
        have hbS : b.Pairwise (fun a c : Nat => a < c) := hsort w b hmv
        by_cases ho : o = some w
        · rw [if_pos ho, ho]
          simp only [Option.map_some', Option.getD_some, beq_self_eq_true,
            Bool.not_true, Bool.and_false]
          refine boolExt ?_
          rw [contains_bmRemove _ _ _ hbS]
          simp
        · rw [if_neg ho]
          have hbne : (o == some w) = false := by
            simpa using ho
          rw [hbne]
          simp

theorem memberFind_mem (fields : List (String × Json)) (f : String)
    (v : Json) (h : memberFind fields f = some v) : (f, v) ∈ fields := by
  induction fields with
  | nil => simp [memberFind] at h
  | cons m rest ih =>
      obtain ⟨k, w⟩ := m
      simp only [memberFind] at h
      by_cases hk : k = f
      · rw [if_pos hk] at h
        injection h with h
        subst hk
        subst h
        exact List.mem_cons_self _ _
      · rw [if_neg hk] at h
        exact List.mem_cons_of_mem _ (ih h)

theorem mem_memberFind (fields : List (String × Json)) (f : String) (v : Json)
    (hnd : (fields.map Prod.fst).Nodup) (h : (f, v) ∈ fields) :
    memberFind fields f = some v := by
  induction fields with
  | nil => simp at h
  | cons m rest ih =>
      obtain ⟨k, w⟩ := m
      simp only [List.map_cons] at hnd
      rcases List.mem_cons.mp h with he | hm
      · injection he with he1 he2
        subst he1
        subst he2
        simp [memberFind]
      · have hk : k ≠ f := by
          intro he
          subst he
          exact (List.nodup_cons.mp hnd).1
            (List.mem_map.mpr ⟨(k, v), hm, rfl⟩)
        simp only [memberFind, if_neg hk]
        exact ih (List.nodup_cons.mp hnd).2 hm

theorem step2_obs (db : VectorDB) (ex : Option Json) (id : Nat)
    (it : IndexType) (db1 : VectorDB) (h : step2RemoveOld db ex id it = .ok db1) :
    db1.filterIndex = db.filterIndex ∧ db1.scalarStorage = db.scalarStorage := by
  unfold step2RemoveOld at h
  split at h
  · split at h
    · simp at h
    · split at h
      · injection h with h
        subst h
        exact ⟨rfl, rfl⟩
      · injection h with h
        subst h
        exact ⟨rfl, rfl⟩
      · injection h with h
        subst h
        exact ⟨rfl, rfl⟩
  · injection h with h
    subst h
    exact ⟨rfl, rfl⟩

theorem step3_obs (db : VectorDB) (nv : List Int) (id : Nat) (it : IndexType) :
    (step3Insert db nv id it).filterIndex = db.filterIndex ∧
    (step3Insert db nv id it).scalarStorage = db.scalarStorage := by
  rcases it with _ | _ | _ <;> exact ⟨rfl, rfl⟩

theorem getScalar_insert_self (store : KVStore) (id : Nat) (data : Json)
    (h : wfJ data) : getScalar (insertScalar store id data) id = some data := by
  unfold getScalar insertScalar
  rw [kvGet_kvPut]
  exact jsonParse_serialize data h

theorem getScalar_insert_ne (store : KVStore) (id id2 : Nat) (data : Json)
    (h : id2 ≠ id) :
    getScalar (insertScalar store id data) id2 = getScalar store id2 := by
  unfold getScalar insertScalar
  rw [kvGet_kvPut_ne _ _ _ _ (fun he => h (natStr_inj _ _ he))]

theorem filterLoop_char (ex : Option Json) (id : Nat)
    (fields : List (String × Json)) :
    ∀ (f f2 : FilterIndexState),
    (fields.map Prod.fst).Nodup → filterWF f →
    (∀ fieldName val, (fieldName, val) ∈ fields → jsonIsInt val = true →
      fieldName ≠ "id" →
      ∀ op, oldFieldValue ex fieldName = .ok op →
        ∀ w, memF f fieldName w (id % U32MOD) = true → op = some w) →
    filterLoop ex id f fields = .ok f2 →
    filterWF f2 ∧
    (∀ ff vv x, x ≠ id % U32MOD → memF f2 ff vv x = memF f ff vv x) ∧
    (∀ ff vv x, (∀ val, (ff, val) ∈ fields →
        ¬(jsonIsInt val = true ∧ ff ≠ "id")) →
      memF f2 ff vv x = memF f ff vv x) ∧
    (∀ ff val, (ff, val) ∈ fields → jsonIsInt val = true → ff ≠ "id" →
      memF f2 ff (jsonInt val) (id % U32MOD) = true ∧
      (∀ w, w ≠ jsonInt val → memF f2 ff w (id % U32MOD) = false)) := by
  induction fields with
  | nil =>
      intro f f2 hnd hwf hpre hrun
      simp only [filterLoop] at hrun
      injection hrun with hrun
      subst hrun
      exact ⟨hwf, fun _ _ _ _ => rfl, fun _ _ _ _ => rfl,
        fun ff val h => absurd h (List.not_mem_nil _)⟩
  | cons head rest ih =>
      obtain ⟨fieldName, val⟩ := head
      intro f f2 hnd hwf hpre hrun
      simp only [filterLoop] at hrun
      simp only [List.map_cons] at hnd
      have hnm : fieldName ∉ rest.map Prod.fst := (List.nodup_cons.mp hnd).1
      have hndr : (rest.map Prod.fst).Nodup := (List.nodup_cons.mp hnd).2
      by_cases hg : (jsonIsInt val && !(fieldName == "id")) = true
      · rw [if_pos hg] at hrun
        have hgg : jsonIsInt val = true ∧ fieldName ≠ "id" := by
          simpa using hg
        obtain ⟨hgi, hgid⟩ := hgg
        rcases hov : oldFieldValue ex fieldName with e | op
        · rw [hov] at hrun
          simp at hrun
        · rw [hov] at hrun
          obtain ⟨hwf1, hOther, hSelfX, hSelf, hSelfW⟩ :=
            update_memF f fieldName op (jsonInt val) id hwf
          have hpre1 : ∀ fn v2, (fn, v2) ∈ rest → jsonIsInt v2 = true →
              fn ≠ "id" → ∀ op2, oldFieldValue ex fn = .ok op2 →
              ∀ w, memF (updateIntFieldFilter f fieldName op (jsonInt val) id)
                fn w (id % U32MOD) = true → op2 = some w := by
            intro fn v2 hm hgi2 hgid2 op2 hov2 w hw
            have hne : fn ≠ fieldName := by
              intro he
              subst he
              exact hnm (List.mem_map.mpr ⟨(fn, v2), hm, rfl⟩)
            rw [hOther fn w _ hne] at hw
            exact hpre fn v2 (List.mem_cons_of_mem _ hm) hgi2 hgid2 op2 hov2 w hw
          obtain ⟨ha, hb, hc, hd⟩ := ih _ f2 hndr hwf1 hpre1 hrun
          refine ⟨ha, ?_, ?_, ?_⟩
          · intro ff vv x hx
            rw [hb ff vv x hx]
            by_cases hf : ff = fieldName
            · subst hf
              exact hSelfX vv x hx
            · exact hOther ff vv x hf
          · intro ff vv x hunt
            have hne : ff ≠ fieldName := by
              intro he
              subst he
              exact hunt val (List.mem_cons_self _ _) ⟨hgi, hgid⟩
            rw [hc ff vv x (fun val' hm => hunt val' (List.mem_cons_of_mem _ hm)),
              hOther ff vv x hne]
          · intro ff v2 hmem hgi2 hgid2
            rcases List.mem_cons.mp hmem with he | hm
            · injection he with he1 he2
              subst he1
              subst he2
              have huntc : ∀ val', (ff, val') ∈ rest →
                  ¬(jsonIsInt val' = true ∧ ff ≠ "id") :=
                fun val' hm' _ => hnm (List.mem_map.mpr ⟨(ff, val'), hm', rfl⟩)
              constructor
              · rw [hc ff (jsonInt v2) _ huntc]
                exact hSelf
              · intro w hw
                rw [hc ff w _ huntc, hSelfW w hw]
                cases hmw : memF f ff w (id % U32MOD)
                · simp
                · have hop := hpre ff v2 (List.mem_cons_self _ _) hgi hgid
                    op hov w hmw
                  rw [hop]
                  simp
            · exact hd ff v2 hm hgi2 hgid2
      · rw [if_neg hg] at hrun
        have hng : ¬(jsonIsInt val = true ∧ fieldName ≠ "id") := by
          intro hb
          exact hg (by simp [hb.1, hb.2])
        obtain ⟨ha, hb, hc, hd⟩ := ih f f2 hndr hwf
          (fun fn v2 hm => hpre fn v2 (List.mem_cons_of_mem _ hm)) hrun
        refine ⟨ha, hb, ?_, ?_⟩
        · intro ff vv x hunt
          exact hc ff vv x (fun val' hm => hunt val' (List.mem_cons_of_mem _ hm))
        · intro ff v2 hmem hgi2 hgid2
          rcases List.mem_cons.mp hmem with he | hm
          · injection he with he1 he2
            subst he1
            subst he2
            exact absurd ⟨hgi2, hgid2⟩ hng
          · exact hd ff v2 hm hgi2 hgid2

theorem upsert_inv (db : VectorDB) (id : Nat) (data : Json)
    (indexType : IndexType) (db' : VectorDB)
    (hinv : dbInv db) (hwd : wfJ data) (hok : intFieldsOk data)
    (hcol : ∀ id2 fields2,
      getScalar db.scalarStorage id2 = some (.objV fields2) →
      id2 % U32MOD = id % U32MOD → id2 = id)
    (hrun : upsert db id data indexType = .ok db') :
    dbInv db' ∧
    ∀ id2 fields2, getScalar db'.scalarStorage id2 = some (.objV fields2) →
      id2 = id ∨ getScalar db.scalarStorage id2 = some (.objV fields2) := by
  obtain ⟨hWF, hLiveOk, hDist, hAcc, hFI⟩ := hinv
  rcases data with _ | _ | _ | _ | _ | fields
  · exact hok.elim
  · exact hok.elim
  · exact hok.elim
  · exact hok.elim
  · exact hok.elim
  obtain ⟨hnd, hall⟩ := hok
  simp only [upsert] at hrun
  split at hrun
  · exact Except.noConfusion hrun
  rename_i db1 h2
  split at hrun
  · exact Except.noConfusion hrun
  rename_i newVector hev
  split at hrun
  · exact Except.noConfusion hrun
  rename_i f2 hloop
  injection hrun with hrun
  obtain ⟨h2f, h2s⟩ := step2_obs _ _ _ _ _ h2
  obtain ⟨h3f, h3s⟩ := step3_obs db1 newVector id indexType
  rw [h3f, h2f] at hloop
  have hfi : db'.filterIndex = f2 := by
    rw [← hrun]
  have hss : db'.scalarStorage = insertScalar db.scalarStorage id (.objV fields) := by
    rw [← hrun]
    show insertScalar (step3Insert db1 newVector id indexType).scalarStorage id
      (Json.objV fields) = _
    rw [h3s, h2s]
  have hpre : ∀ fn val, (fn, val) ∈ fields → jsonIsInt val = true →
      fn ≠ "id" → ∀ op,
      oldFieldValue (getScalar db.scalarStorage id) fn = .ok op →
      ∀ w, memF db.filterIndex fn w (id % U32MOD) = true → op = some w := by
    intro fn val hm hgi hgid op hov w hwmem
    obtain ⟨hfid, id1, fields1, hg1, hmod1, hdisj⟩ := hAcc fn w _ hwmem
    have hid1 : id1 = id := hcol id1 fields1 hg1 hmod1
    rw [hid1] at hg1
    rw [hg1] at hov
    simp only [oldFieldValue] at hov
    rcases hmf : memberFind fields1 fn with _ | ev
    · rw [hmf] at hov
      simp at hov
    · rw [hmf] at hov
      by_cases h64 : jsonIsInt64 ev = true
      · simp only [h64, if_true] at hov
        injection hov with hov
        rcases ev with _ | _ | m | _ | _ | _
        · exact absurd h64 (by simp [jsonIsInt64])
        · exact absurd h64 (by simp [jsonIsInt64])
        · rcases hdisj with hd1 | hd2 | ⟨u, hu1, hu2⟩
          · rw [hmf] at hd1
            injection hd1 with hd1
            injection hd1 with hd1
            rw [← hov, hd1]
            rfl
          · rw [hmf] at hd2
            exact Option.noConfusion hd2
          · rw [hmf] at hu1
            injection hu1 with hu1
            rw [← hu1] at hu2
            rw [h64] at hu2
            exact Bool.noConfusion hu2
        · exact absurd h64 (by simp [jsonIsInt64])
        · exact absurd h64 (by simp [jsonIsInt64])
        · exact absurd h64 (by simp [jsonIsInt64])
      · simp only [Bool.not_eq_true] at h64
        simp only [h64] at hov
        simp at hov
  obtain ⟨ha, hb, hc, hd⟩ :=
    filterLoop_char (getScalar db.scalarStorage id) id fields
      db.filterIndex f2 hnd hWF hpre hloop
  have hgid : getScalar db'.scalarStorage id = some (.objV fields) := by
    rw [hss]
    exact getScalar_insert_self _ _ _ hwd
  have hgne : ∀ id2, id2 ≠ id →
      getScalar db'.scalarStorage id2 = getScalar db.scalarStorage id2 := by
    intro id2 hne2
    rw [hss]
    exact getScalar_insert_ne _ _ _ _ hne2
  constructor
  · refine ⟨?_, ?_, ?_, ?_, ?_⟩
    · rw [hfi]
      exact ha
    · intro id0 fields0 hg0
      by_cases he0 : id0 = id
      · rw [he0] at hg0
        rw [hgid] at hg0
        injection hg0 with hg0
        injection hg0 with hg0
        subst hg0
        exact ⟨hwd, ⟨hnd, hall⟩⟩
      · rw [hgne id0 he0] at hg0
        exact hLiveOk id0 fields0 hg0
    · intro id1 id2 fl1 fl2 hg1 hg2 hmod
      by_cases he1 : id1 = id
      · by_cases he2 : id2 = id
        · rw [he1, he2]
        · rw [hgne id2 he2] at hg2
          rw [he1]
          exact (hcol id2 fl2 hg2 (by rw [← hmod, he1])).symm
      · rw [hgne id1 he1] at hg1
        by_cases he2 : id2 = id
        · rw [he2]
          exact hcol id1 fl1 hg1 (by rw [← he2]; exact hmod)
        · rw [hgne id2 he2] at hg2
          exact hDist id1 id2 fl1 fl2 hg1 hg2 hmod
    · intro f v x hmem
      rw [hfi] at hmem
      by_cases hx : x = id % U32MOD
      · subst hx
        by_cases htouch : ∃ val, (f, val) ∈ fields ∧ jsonIsInt val = true ∧
            f ≠ "id"
        · obtain ⟨val, hmv, hgi, hfid⟩ := htouch
          obtain ⟨hdT, hdF⟩ := hd f val hmv hgi hfid
          by_cases hveq : v = jsonInt val
          · rcases val with _ | _ | n | _ | _ | _
            · exact absurd hgi (by simp [jsonIsInt])
            · exact absurd hgi (by simp [jsonIsInt])
            · refine ⟨hfid, id, fields, hgid, rfl, Or.inl ?_⟩
              rw [mem_memberFind fields f (.intV n) hnd hmv, hveq]
              rfl
            · exact absurd hgi (by simp [jsonIsInt])
            · exact absurd hgi (by simp [jsonIsInt])
            · exact absurd hgi (by simp [jsonIsInt])
          · rw [hdF v hveq] at hmem
            exact Bool.noConfusion hmem
        · have huntc : ∀ val, (f, val) ∈ fields →
              ¬(jsonIsInt val = true ∧ f ≠ "id") :=
            fun val hm hb2 => htouch ⟨val, hm, hb2.1, hb2.2⟩
          rw [hc f v _ huntc] at hmem
          obtain ⟨hfid, id1, fields1, hg1, hmod1, hdisj⟩ := hAcc f v _ hmem
          have hid1 : id1 = id := hcol id1 fields1 hg1 hmod1
          refine ⟨hfid, id, fields, hgid, rfl, ?_⟩
          rcases hmf : memberFind fields f with _ | val
          · exact Or.inr (Or.inl rfl)
          · have hmm : (f, val) ∈ fields := memberFind_mem _ _ _ hmf
            have hni : ¬(jsonIsInt val = true ∧ f ≠ "id") := huntc val hmm
            have hgi : jsonIsInt val = false := by
              cases hgi2 : jsonIsInt val
              · rfl
              · exact absurd ⟨hgi2, hfid⟩ hni
            rcases val with _ | _ | n | _ | _ | _
            · exact Or.inr (Or.inr ⟨_, rfl, rfl⟩)
            · exact Or.inr (Or.inr ⟨_, rfl, rfl⟩)
            · have h32 : int32Val (.intV n) := hall (f, .intV n) hmm
              have hgi2 : jsonIsInt (.intV n) = true := by
                simp only [jsonIsInt, Bool.and_eq_true, decide_eq_true_eq]
                exact ⟨h32.1, h32.2⟩
              rw [hgi2] at hgi
              exact Bool.noConfusion hgi
            · exact Or.inr (Or.inr ⟨_, rfl, rfl⟩)
            · exact Or.inr (Or.inr ⟨_, rfl, by simp [jsonIsInt64]⟩)
            · exact Or.inr (Or.inr ⟨_, rfl, by simp [jsonIsInt64]⟩)
      · rw [hb f v x hx] at hmem
        obtain ⟨hfid, id1, fields1, hg1, hmod1, hdisj⟩ := hAcc f v x hmem
        have hne1 : id1 ≠ id := by
          intro he
          subst he
          exact hx hmod1.symm
        exact ⟨hfid, id1, fields1, by rw [hgne id1 hne1]; exact hg1,
          hmod1, hdisj⟩
    · intro id0 fields0 hg0 fv hfv hfvid n hfvn
      obtain ⟨ffn, fvv⟩ := fv
      simp only at hfvid
      simp only at hfvn
      subst hfvn
      by_cases he0 : id0 = id
      · rw [he0] at hg0
        rw [hgid] at hg0
        injection hg0 with hg0
        injection hg0 with hg0
        subst hg0
        have h32 : int32Val (Json.intV n) := hall (ffn, .intV n) hfv
        have hgi : jsonIsInt (.intV n) = true := by
          simp only [jsonIsInt, Bool.and_eq_true, decide_eq_true_eq]
          exact ⟨h32.1, h32.2⟩
        obtain ⟨hdT, hdF⟩ := hd ffn (.intV n) hfv hgi hfvid
        rw [hfi, he0]
        exact ⟨hdT, fun w hwn => hdF w (by simpa using hwn)⟩
      · rw [hgne id0 he0] at hg0
        obtain ⟨hT, hF⟩ := hFI id0 fields0 hg0 (ffn, .intV n) hfv hfvid n rfl
        have hx0 : id0 % U32MOD ≠ id % U32MOD := by
          intro he
          exact he0 (hcol id0 fields0 hg0 he)
        rw [hfi]
        refine ⟨?_, ?_⟩
        · rw [hb ffn n _ hx0]
          exact hT
        · intro w hwn
          rw [hb ffn w _ hx0]
          exact hF w hwn
  · intro id2 fields2 hg2
    by_cases he2 : id2 = id
    · exact Or.inl he2
    · rw [hgne id2 he2] at hg2
      exact Or.inr hg2

theorem initial_dbInv : dbInv initialVectorDB := by
  have hget : ∀ id : Nat, getScalar initialVectorDB.scalarStorage id = none := by
    intro id
    rfl
  have hmem : ∀ (f : String) (v : Int) (x : Nat),
      memF initialVectorDB.filterIndex f v x = false := by
    intro f v x
    rfl
  refine ⟨?_, ?_, ?_, ?_, ?_⟩
  · intro fvm h
    exact absurd h (List.not_mem_nil _)
  · intro id fields h
    rw [hget id] at h
    exact Option.noConfusion h
  · intro id1 id2 f1 f2 h1 h2 _
    rw [hget id1] at h1
    exact Option.noConfusion h1
  · intro f v x h
    rw [hmem f v x] at h
    exact Bool.noConfusion h
  · intro id fields h
    rw [hget id] at h
    exact Option.noConfusion h

theorem applyUpserts_inv (ops : List (Nat × Json × IndexType)) :
    ∀ (db db2 : VectorDB), dbInv db →
    (∀ op ∈ ops, wfJ op.2.1 ∧ intFieldsOk op.2.1) →
    (∀ op ∈ ops, ∀ id2 fields2,
      getScalar db.scalarStorage id2 = some (.objV fields2) →
      id2 % U32MOD = op.1 % U32MOD → id2 = op.1) →
    List.Pairwise (fun p q => p.1 % U32MOD = q.1 % U32MOD → p.1 = q.1) ops →
    applyUpserts db ops = .ok db2 → dbInv db2 := by
  induction ops with
  | nil =>
      intro db db2 hinv _ _ _ hrun
      simp only [applyUpserts] at hrun
      injection hrun with hrun
      rw [← hrun]
      exact hinv
  | cons op ops ih =>
      intro db db2 hinv hops hcompat hpair hrun
      simp only [applyUpserts] at hrun
      split at hrun
      · exact Except.noConfusion hrun
      rename_i db1 h1
      obtain ⟨hinv1, hgrow⟩ := upsert_inv db op.1 op.2.1 op.2.2 db1 hinv
        (hops op (List.mem_cons_self _ _)).1 (hops op (List.mem_cons_self _ _)).2
        (hcompat op (List.mem_cons_self _ _)) h1
      refine ih db1 db2 hinv1
        (fun q hq => hops q (List.mem_cons_of_mem _ hq)) ?_
        (List.Pairwise.of_cons hpair) hrun
      intro q hq id2 fields2 hg2 hm2
      rcases hgrow id2 fields2 hg2 with he | hold
      · rw [he]
        rw [he] at hm2
        exact (List.pairwise_cons.mp hpair).1 q hq hm2
      · exact hcompat q (List.mem_cons_of_mem _ hq) id2 fields2 hold hm2

/-- C2 counterexample: the claim says that after any sequence of upserts,
every record currently in the store appears in exactly one bitmap of the
posting map of each of its integer-valued fields, at the key given by the
field's value.  Upserting the single document
`{"id":1,"vectors":[1],"a":4294967296}` succeeds and leaves the record
live with the integer-valued field `a = 2^32`, yet the posting map for
`a` holds no bitmap at all — rapidjson's `IsInt()` rejects values outside
the 32-bit range, so the filter loop never indexes the field and the
identifier appears in zero bitmaps rather than exactly one. -/
theorem C2_counterexample :
    ∃ db2 fields,
      applyUpserts initialVectorDB
        [(1, .objV [("id", .intV 1), ("vectors", .arrV [.intV 1]),
            ("a", .intV 4294967296)], .FLAT)] = .ok db2 ∧
      getScalar db2.scalarStorage 1 = some (.objV fields) ∧
      ("a", .intV 4294967296) ∈ fields ∧
      mapFind db2.filterIndex "a" = none ∧
      ∀ v : Int, memF db2.filterIndex "a" v (1 % U32MOD) = false := by
  refine ⟨⟨[(natStr 1, jsonSerialize (.objV [("id", .intV 1),
        ("vectors", .arrV [.intV 1]), ("a", .intV 4294967296)]))],
      [], [(1, [1])], []⟩,
    [("id", .intV 1), ("vectors", .arrV [.intV 1]), ("a", .intV 4294967296)],
    by decide, rfl,
    List.mem_cons_of_mem _ (List.mem_cons_of_mem _ (List.mem_cons_self _ _)),
    rfl, fun v => rfl⟩

/-- C2 (amended): restricted to documents whose member names are
duplicate-free, whose strings are escape-free, and whose integer fields
lie in rapidjson's 32-bit `IsInt` range, and to upsert sequences whose
identifiers are pairwise distinct modulo `2^32` and which complete
without an assertion failure: every live record's identifier (truncated
to 32 bits) is then a member of the bitmap at `posting[f][d[f]]` for each
of its integer fields `f` other than `id`, and of no bitmap at any other
value of `posting[f]` — the update path removes the old posting before
adding the new one. -/
theorem C2_amended (ops : List (Nat × Json × IndexType)) (db2 : VectorDB)
    (hops : ∀ op ∈ ops, wfJ op.2.1 ∧ intFieldsOk op.2.1)
    (hpair : List.Pairwise
      (fun p q => p.1 % U32MOD = q.1 % U32MOD → p.1 = q.1) ops)
    (hrun : applyUpserts initialVectorDB ops = .ok db2) :
    filterInvariant db2 := by
  refine (applyUpserts_inv ops initialVectorDB db2 initial_dbInv hops
    ?_ hpair hrun).2.2.2.2
  intro op hop id2 fields2 hg2 _
  exact Option.noConfusion ((rfl :
    getScalar initialVectorDB.scalarStorage id2 = none) ▸ hg2)

/-- C2 witness: a concrete two-upsert run on one record whose integer
field `category` changes from 100 to 999; the amended theorem applies and
yields the filter invariant of the resulting state. -/
theorem C2_witness :
    filterInvariant
      { scalarStorage := [(natStr 10, jsonSerialize (.objV [("id", .intV 10),
          ("vectors", .arrV [.intV 2]), ("category", .intV 999)]))],
        filterIndex := [("category", [(100, []), (999, [10])])],
        flatIndex := [(10, [2])], hnswIndex := [] } :=
  C2_amended
    [(10, .objV [("id", .intV 10), ("vectors", .arrV [.intV 1]),
        ("category", .intV 100)], .FLAT),
     (10, .objV [("id", .intV 10), ("vectors", .arrV [.intV 2]),
        ("category", .intV 999)], .FLAT)]
    _ (by decide) (by decide) (by decide)

end AmongVDB
